import Mathlib

/-!
# impress-asq-adapter: a shallow embedding of `browser/impressAsqAdapter.js`

The adapter is one JavaScript closure (`asqImpressAdapter`) whose local variables
(`steps`, `activeStep`, `lastHash`, `impressPatched`, `roots`, ...) are the state of
one adapter instance.  The embedding makes that state explicit (`World`), together
with the part of the page the closure reads or writes (`window.location.hash`,
`window.impress`, the `#impress` root element) and a log of the calls made to the
two collaborators (the socket's `emitGoto`, the host's original `goto`).

Every function of the closure becomes a function `World → Completion α × World`.
-/

namespace ImpressAsqAdapter

/-! ## Values -/

/-- JavaScript values the adapter can be handed.  Step identifiers are strings; the
other constructors stand for everything that is not a string (`obj` is an object
identified by reference). -/
inductive JsVal where
  | undefined
  | null
  | bool (b : Bool)
  | num (n : Int)
  | str (s : String)
  | obj (ref : Nat)
  deriving DecidableEq, Repr

/-- The object literal `{step: ..., duration: ...}` handed to `asqSocket.emitGoto`. -/
structure Payload where
  step : JsVal
  duration : JsVal
  deriving DecidableEq, Repr

/-- What the `onGoto` callback can receive: `undefined`, `null`, or a value whose
property reads `data.step` and `data.duration` give the two stored values (a missing
property reads as `undefined`, so `{}` is `obj undefined undefined`). -/
inductive Data where
  | undefined
  | null
  | obj (step : JsVal) (duration : JsVal)
  deriving DecidableEq, Repr

/-- Exceptions raised by the JavaScript runtime while the adapter runs. -/
inductive JsError where
  /-- TypeError: the named variable is called while it still holds `undefined`. -/
  | notAFunction (name : String)
  /-- TypeError: a property of the named variable is read while it holds `null`. -/
  | nullReference (name : String)
  deriving DecidableEq, Repr

/-- How a call ends: it returns a value, it throws, or the bounded re-entry depth of
the loopback channel model ran out (`unfinished`; see `loopbackEmit`). -/
inductive Completion (α : Type) where
  | normal (v : α)
  | throw (e : JsError)
  | unfinished
  deriving DecidableEq, Repr

/-! ## State -/

/-- The closure variables of one adapter instance, the page state it touches and the
log of calls to its collaborators. -/
structure World where
  /-- Variable `steps`: the array of step ids (strings). -/
  steps : List String
  /-- Variable `standalone` after `standalone || false`. -/
  standalone : Bool
  /-- Variable `offset` after `offset || 0`. -/
  offset : Nat
  /-- Whether `root !== null`, for `root = document.getElementById('impress')`. -/
  rootPresent : Bool
  /-- Variable `impressPatched`. -/
  impressPatched : Bool
  /-- Variable `activeStep` (initially `null`). -/
  activeStep : JsVal
  /-- Variable `lastHash`. -/
  lastHash : String
  /-- Keys `rootId` for which `roots["impress-root-" + rootId]` holds a patched API. -/
  roots : List String
  /-- The `var` function expressions `prev`, `next`, `getNext`, `getElementFromHash`
  have been assigned (lines 156-185); before that the variables hold `undefined`. -/
  fnBound : Bool
  /-- The `onGoto` callback has been handed to the socket (line 116). -/
  onGotoCb : Bool
  /-- The `hashchange` listener has been added to `window` (line 193). -/
  hashListener : Bool
  /-- The `impress:stepenter` listener has been added to `root` (line 188). -/
  stepEnterListener : Bool
  /-- Whether `patchImpress` is registered on `root` for `impress:init`. -/
  initListener : Bool
  /-- Value of `window.location.hash`. -/
  hash : String
  /-- Whether `typeof window.impress === 'function'`. -/
  impressIsFn : Bool
  /-- The `id` of each element of `document.querySelectorAll('.step')`, in document
  order (the empty string for an element without an id). -/
  stepElementIds : List String
  /-- Payloads passed to `asqSocket.emitGoto`, oldest first. -/
  emitted : List Payload
  /-- Arguments of the calls to the host's original `goto` (`gotoOrig`), oldest first. -/
  hostGotos : List (JsVal × JsVal)
  /-- Root ids with which the host's original factory `impressOrig` was called. -/
  origFactoryCalls : List String
  deriving DecidableEq, Repr

/-- The result of running a piece of the adapter. -/
abbrev Outcome (α : Type) := Completion α × World

/-- Sequencing of statements: an abrupt completion ends the enclosing function. -/
def andThen {α β : Type} (r : Outcome α) (k : α → World → Outcome β) : Outcome β :=
  match r with
  | (.normal v, w) => k v w
  | (.throw e, w) => (.throw e, w)
  | (.unfinished, w) => (.unfinished, w)

/-- The behaviour of `asqSocket.emitGoto(payload)` as seen from the adapter. -/
abbrev Emit := Payload → World → Outcome Unit

/-! ## The step registry: `indexOf`, indexing, `goto`, `prev`, `next`, `getNext` -/

/-- Model of `Array.prototype.indexOf` scanning from position `k`: the first position whose
element is strictly equal (`===`) to `v`, or `-1`. -/
def indexOfFrom (v : JsVal) : List String → Nat → Int
  | [], _ => -1
  | s :: rest, k => if JsVal.str s = v then (k : Int) else indexOfFrom v rest (k + 1)

/-- Call `steps.indexOf(v)`. -/
def indexOf (steps : List String) (v : JsVal) : Int :=
  indexOfFrom v steps 0

/-- Read `steps[i]` for an integer `i`: `undefined` outside `0 .. steps.length - 1`. -/
def stepAt (steps : List String) (i : Int) : JsVal :=
  if 0 ≤ i then
    match steps[i.toNat]? with
    | some s => .str s
    | none => .undefined
  else .undefined

/-- Function `goto(id, duration)` (lines 143-153), for a given behaviour of `emitGoto`. -/
def goto (emit : Emit) (id duration : JsVal) (w : World) : Outcome JsVal :=
  match id with
  | .str s =>
    if indexOf w.steps (.str s) < 0 then (.normal .null, w)
    else
      let w1 := { w with activeStep := .str s }
      andThen (emit ⟨w1.activeStep, duration⟩ w1) fun _ w2 =>
        (.normal w2.activeStep, w2)
  | _ => (.normal .null, w)

/-- Function `prev()` (lines 156-161). -/
def prev (emit : Emit) (w : World) : Outcome JsVal :=
  let p : Int := indexOf w.steps w.activeStep - 1
  let target := if p ≥ 0 then stepAt w.steps p else stepAt w.steps ((w.steps.length : Int) - 1)
  goto emit target .undefined w

/-- Function `next()` (lines 164-169). -/
def next (emit : Emit) (w : World) : Outcome JsVal :=
  let n : Int := indexOf w.steps w.activeStep + 1
  let target := if n < (w.steps.length : Int) then stepAt w.steps n else stepAt w.steps 0
  goto emit target .undefined w

/-- Function `getNext()` (lines 172-177): the id after the active one, without moving.
The variable `getNext` is assigned at line 172; a call before that throws. -/
def getNext (w : World) : Completion JsVal :=
  if w.fnBound then
    let n : Int := indexOf w.steps w.activeStep + 1
    .normal (if n < (w.steps.length : Int) then stepAt w.steps n else stepAt w.steps 0)
  else .throw (.notAFunction "getNext")

/-! ## The address-bar fragment -/

/-- The replacement `hash.replace(/^#\/?/, "")`: drops a leading `#` and one `/`
following it. -/
def stripFragment (h : String) : String :=
  match h.data with
  | '#' :: '/' :: rest => String.mk rest
  | '#' :: rest => String.mk rest
  | _ => h

/-- Function `getElementFromHash()` (lines 181-185).  The variable is assigned at
line 181; a call before that throws (the `var` declaration is hoisted, its value is
not). -/
def getElementFromHash (w : World) : Completion String :=
  if w.fnBound then .normal (stripFragment w.hash)
  else .throw (.notAFunction "getElementFromHash")

/-- The statement `goto(getElementFromHash() || steps[0], 0)` of lines 72 and 113: the
argument is evaluated first; an empty string is falsy, any other string is truthy. -/
def gotoStart (emit : Emit) (w : World) : Outcome JsVal :=
  match getElementFromHash w with
  | .normal h => goto emit (if h = "" then stepAt w.steps 0 else .str h) (.num 0) w
  | .throw e => (.throw e, w)
  | .unfinished => (.unfinished, w)

/-! ## The host library bridge -/

/-- Function `patchImpress()` (lines 77-114). -/
def patchImpress (emit : Emit) (w : World) : Outcome Unit :=
  if w.impressPatched then (.normal (), w)
  else if !w.impressIsFn then
    -- root.addEventListener("impress:init", patchImpress)
    if w.rootPresent then (.normal (), { w with initListener := true })
    else (.throw (.nullReference "root"), w)
  else
    -- root.removeEventListener("impress:init", patchImpress)
    if !w.rootPresent then (.throw (.nullReference "root"), w)
    else
      -- window.impress = function(rootId) ...; impressPatched = true
      let w1 := { w with initListener := false, impressPatched := true }
      andThen (gotoStart emit w1) fun _ w2 => (.normal (), w2)

/-- The assignment `rootId = rootId || "impress"` (line 91): an absent or empty
argument stands for `"impress"`. -/
def rootKey (rootId : Option String) : String :=
  match rootId with
  | some id => if id = "" then "impress" else id
  | none => "impress"

/-- A call `impress(rootId)` of the patched factory (lines 90-107): the cached API is
returned when there is one, otherwise the original factory is called and its result
is patched and cached. -/
def impressCall (rootId : Option String) (w : World) : World :=
  if rootKey rootId ∈ w.roots then w
  else
    { w with
      origFactoryCalls := w.origFactoryCalls ++ [rootKey rootId]
      roots := w.roots ++ [rootKey rootId] }

/-- A call `api.gotoOrig(step, duration)`: the host's own navigation, recorded. -/
def gotoOrig (step duration : JsVal) (w : World) : World :=
  { w with hostGotos := w.hostGotos ++ [(step, duration)] }

/-! ## Remote navigation: the `onGoto` callback -/

/-- The loop `while (times-- > 0) { activeStep = getNext(); }` (lines 129-133). -/
def advance : Nat → World → Outcome Unit
  | 0, w => (.normal (), w)
  | t + 1, w =>
    match getNext w with
    | .normal v => advance t { w with activeStep := v }
    | .throw e => (.throw e, w)
    | .unfinished => (.unfinished, w)

/-- The callback handed to `asqSocket.onGoto` (lines 116-139). -/
def onGoto (emit : Emit) (data : Data) (w : World) : Outcome Unit :=
  match data with
  | .undefined => (.normal (), w)
  | .null => (.normal (), w)
  | .obj step duration =>
    if step = .undefined ∨ step = .null then (.normal (), w)
    else
      let w1 := { w with activeStep := step }
      andThen (advance w1.offset w1) fun _ w2 =>
        if w2.impressIsFn then
          andThen (if !w2.impressPatched then patchImpress emit w2 else (.normal (), w2))
            fun _ w3 => (.normal (), gotoOrig w3.activeStep duration (impressCall none w3))
        else (.normal (), w2)

/-! ## The channel -/

/-- Recording of a payload handed to `emitGoto`. -/
def publish (p : Payload) (w : World) : World :=
  { w with emitted := w.emitted ++ [p] }

/-- A channel whose `emitGoto` sends the payload away and returns: it does not call
back into the adapter. -/
def fireAndForget : Emit :=
  fun p w => (.normal (), publish p w)

/-- The channel of `example/js/example.js` (`asqSocketMock`): `emitGoto(data)` calls
`receiveData(data)`, which calls the registered `onGoto` callback with the same object
before returning.  The callback may itself reach `emitGoto` again (through
`patchImpress` and `goto`); `depth` bounds that nesting, and `unfinished` marks a run
that would need more. -/
def loopbackEmit : Nat → Emit
  | 0 => fun p w => (.unfinished, publish p w)
  | depth + 1 => fun p w =>
    let w1 := publish p w
    if w1.onGotoCb then onGoto (loopbackEmit depth) (.obj p.step p.duration) w1
    else (.normal (), w1)

/-- The two kinds of channel considered. -/
inductive Channel where
  | fireAndForget
  | loopback
  deriving DecidableEq, Repr

/-- The `emitGoto` of a channel.  Nesting depth 2 is all the loopback channel can
use: a nested `emitGoto` only happens below `patchImpress`, which runs at most once
(see `loopbackEmit_depth`). -/
def emitGoto : Channel → Emit
  | .fireAndForget => fireAndForget
  | .loopback => loopbackEmit 2

/-! ## Page events -/

/-- The `hashchange` listener (lines 193-202). -/
def onHashChange (emit : Emit) (w : World) : Outcome Unit :=
  if w.hash ≠ w.lastHash then
    match getElementFromHash w with
    | .normal h => andThen (goto emit (.str h) .undefined w) fun _ w1 => (.normal (), w1)
    | .throw e => (.throw e, w)
    | .unfinished => (.unfinished, w)
  else (.normal (), w)

/-- The `impress:stepenter` listener (lines 188-190), for `event.target.id = id`:
`window.location.hash = lastHash = "#/" + id`. -/
def onStepEnter (id : String) (w : World) : World :=
  { w with lastHash := "#/" ++ id, hash := "#/" ++ id }

/-- The `impress:init` event reaching `root`: runs `patchImpress` when it is
registered as a listener. -/
def onImpressInit (emit : Emit) (w : World) : Outcome Unit :=
  if w.initListener then patchImpress emit w else (.normal (), w)

/-- The page gets the host library: `window.impress` becomes a function. -/
def loadImpress (w : World) : World :=
  { w with impressIsFn := true }

/-! ## Construction -/

/-- The page as the constructor finds it. -/
structure Page where
  /-- Value of `window.location.hash`. -/
  hash : String
  /-- Whether `typeof window.impress === 'function'`. -/
  impressIsFn : Bool
  /-- Whether `document.getElementById('impress')` is an element. -/
  rootPresent : Bool
  /-- The `id` of each `.step` element, in document order (empty when it has none). -/
  stepElementIds : List String
  deriving DecidableEq, Repr

/-- The callback of the `map` over the step elements (lines 59-65), from index `idx`
on: an element without id gets the id `"step-" + (idx + 1)`. -/
def assignIds : Nat → List String → List String
  | _, [] => []
  | idx, id :: rest =>
    (if id = "" then "step-" ++ toString (idx + 1) else id) :: assignIds (idx + 1) rest

/-- The constructor `asqImpressAdapter(asqSocket, slidesTree, standalone, offset)`
(lines 43-303), its statements in source order.  `slidesTree` is `none` for a falsy
argument.  The keyboard, click and touch listeners of the standalone branch are left
out: they only call `prev`, `next` and `goto`. -/
def asqImpressAdapter (emit : Emit) (slidesTree : Option (List String)) (standalone : Bool)
    (offset : Nat) (page : Page) : Outcome Unit :=
  let domIds := match slidesTree with
    | some _ => page.stepElementIds
    | none => assignIds 0 page.stepElementIds
  let w0 : World :=
    { steps := match slidesTree with
        | some l => l
        | none => domIds
      standalone := standalone
      offset := offset
      rootPresent := page.rootPresent
      impressPatched := false
      activeStep := .null
      lastHash := ""
      roots := []
      fnBound := false
      onGotoCb := false
      hashListener := false
      stepEnterListener := false
      initListener := false
      hash := page.hash
      impressIsFn := page.impressIsFn
      stepElementIds := domIds
      emitted := []
      hostGotos := []
      origFactoryCalls := [] }
  -- lines 68-73
  let r := if !standalone then patchImpress emit w0
    else andThen (gotoStart emit w0) fun _ w => (.normal (), w)
  andThen r fun _ w1 =>
    -- line 116, then lines 156-185, then lines 187-202
    let w2 := { w1 with onGotoCb := true }
    let w3 := { w2 with fnBound := true }
    (.normal (), { w3 with stepEnterListener := w3.rootPresent, hashListener := true })

/-! ## Sample states -/

/-- The state of an adapter over the steps `a`, `b`, `c` once its constructor has
returned (not standalone, host library not loaded yet, root element present), with the
given active step and offset. -/
def abcWorld (active : JsVal) (offset : Nat) : World :=
  { steps := ["a", "b", "c"]
    standalone := false
    offset := offset
    rootPresent := true
    impressPatched := false
    activeStep := active
    lastHash := ""
    roots := []
    fnBound := true
    onGotoCb := true
    hashListener := true
    stepEnterListener := true
    initListener := true
    hash := ""
    impressIsFn := false
    stepElementIds := []
    emitted := []
    hostGotos := []
    origFactoryCalls := [] }

/-- The sample state after the host library has been loaded and `impress:init` has run
`patchImpress` with an empty fragment: the host is patched and the first step is
active. -/
def abcPatched (offset : Nat) : World :=
  { abcWorld (.str "a") offset with
    impressIsFn := true
    impressPatched := true
    initListener := false
    emitted := [⟨.str "a", .num 0⟩] }

/-- The constructed sample state with the address-bar fragment set to `h`. -/
def abcAt (h : String) (offset : Nat) : World :=
  { abcWorld .null offset with hash := h }

/-- A state in which the `onGoto` callback will not call `patchImpress`: the host
library is absent, or it is patched already. -/
def Settled (w : World) : Prop :=
  w.impressIsFn = false ∨ w.impressPatched = true

/-! ## Events of the page, runs -/

/-- What can happen to a constructed adapter, one event at a time (the page is
single-threaded, each handler runs to its end before the next event). -/
inductive Event where
  /-- A call `goto(id, duration)` of the returned object or of a patched API. -/
  | goto (id duration : JsVal)
  /-- A call `next()`. -/
  | next
  /-- A call `prev()`. -/
  | prev
  /-- The address-bar fragment becomes `h` and the `hashchange` notification fires. -/
  | fragment (h : String)
  /-- The channel delivers `data` to the `onGoto` callback. -/
  | remote (data : Data)
  /-- The host fires `impress:stepenter` on the root for the element with this id. -/
  | stepEnter (id : String)
  /-- The host library is loaded into the page. -/
  | loadHost
  /-- The host fires `impress:init` on the root. -/
  | init
  /-- Some script calls `impress(rootId)`. -/
  | factory (rootId : Option String)
  deriving DecidableEq, Repr

/-- The state after one event.  A handler that throws leaves the assignments it made
(the exception goes to the browser's event loop). -/
def step (emit : Emit) (ev : Event) (w : World) : World :=
  match ev with
  | .goto id duration => (goto emit id duration w).2
  | .next => (next emit w).2
  | .prev => (prev emit w).2
  | .fragment h =>
    if w.hashListener then (onHashChange emit { w with hash := h }).2 else { w with hash := h }
  | .remote data => if w.onGotoCb then (onGoto emit data w).2 else w
  | .stepEnter id => if w.stepEnterListener then onStepEnter id w else w
  | .loadHost => loadImpress w
  | .init => (onImpressInit emit w).2
  | .factory rootId => if w.impressPatched then impressCall rootId w else w

/-- The state after a sequence of events, oldest first. -/
def run (emit : Emit) : List Event → World → World
  | [], w => w
  | ev :: rest, w => run emit rest (step emit ev w)

/-- Whether a value is a string of the step sequence. -/
def isStep (steps : List String) : JsVal → Bool
  | .str s => decide (s ∈ steps)
  | _ => false

/-- Every payload handed to the channel so far carries a step of the step sequence. -/
def LogOK (w : World) : Prop :=
  ∀ p ∈ w.emitted, isStep w.steps p.step = true

/-- The cache of the patched factory and the log of calls to the original factory
agree: the original factory was called once for each cached root, and for no other. -/
def CacheOK (w : World) : Prop :=
  w.origFactoryCalls = w.roots ∧ w.roots.Nodup

/-- What a piece of adapter code leaves alone: the configuration, the listeners, the
fragment and its cache, the presence of the host; and what it maintains. -/
structure Keeps (w w' : World) : Prop where
  steps : w'.steps = w.steps
  offset : w'.offset = w.offset
  standalone : w'.standalone = w.standalone
  rootPresent : w'.rootPresent = w.rootPresent
  fnBound : w'.fnBound = w.fnBound
  onGotoCb : w'.onGotoCb = w.onGotoCb
  hashListener : w'.hashListener = w.hashListener
  stepEnterListener : w'.stepEnterListener = w.stepEnterListener
  hash : w'.hash = w.hash
  lastHash : w'.lastHash = w.lastHash
  impressIsFn : w'.impressIsFn = w.impressIsFn
  stepElementIds : w'.stepElementIds = w.stepElementIds
  patched : w.impressPatched = true → w'.impressPatched = true
  log : LogOK w → LogOK w'
  cache : CacheOK w → CacheOK w'

/-- What no event changes, and what every event maintains. -/
structure Stable (w w' : World) : Prop where
  steps : w'.steps = w.steps
  offset : w'.offset = w.offset
  standalone : w'.standalone = w.standalone
  rootPresent : w'.rootPresent = w.rootPresent
  fnBound : w'.fnBound = w.fnBound
  onGotoCb : w'.onGotoCb = w.onGotoCb
  hashListener : w'.hashListener = w.hashListener
  stepEnterListener : w'.stepEnterListener = w.stepEnterListener
  stepElementIds : w'.stepElementIds = w.stepElementIds
  patched : w.impressPatched = true → w'.impressPatched = true
  log : LogOK w → LogOK w'
  cache : CacheOK w → CacheOK w'

/-- A sample of events without remote payloads: a rejected `goto`, `prev`, a fragment
change to a step, one to no step, then the host library arrives and starts. -/
def localEvents : List Event :=
  [.goto (.num 3) .undefined, .prev, .fragment "#/b", .fragment "#/zz", .loadHost, .init]

/-- The active step is unset or a step of the sequence. -/
def ActiveOK (w : World) : Prop :=
  w.activeStep = .null ∨ isStep w.steps w.activeStep = true

/-- A channel behaviour that, handed a step of the sequence, leaves alone what the
adapter leaves alone. -/
def EmitKeeps (e : Emit) : Prop :=
  ∀ p w, isStep w.steps p.step = true → Keeps w (e p w).2

/-- A channel that takes a payload only when its step is the active step of the
moment and a step of the sequence, and ignores every other payload. -/
def onlyActiveSteps (e : Emit) : Emit :=
  fun p w =>
    if p.step = w.activeStep ∧ isStep w.steps p.step = true then e p w else (.normal (), w)

/-! ## The host's API objects -/

/-- The functions that can sit in a field of a host API object. -/
inductive Fn where
  /-- The host's own `goto` of the root. -/
  | hostGoto (root : String)
  /-- The host's own `next` of the root. -/
  | hostNext (root : String)
  /-- The host's own `prev` of the root. -/
  | hostPrev (root : String)
  /-- The adapter's `goto` (a function declaration, always there). -/
  | adapterGoto
  /-- The adapter's `next`. -/
  | adapterNext
  /-- The adapter's `prev`. -/
  | adapterPrev
  /-- No function: the field is missing or holds `undefined`. -/
  | undefined
  deriving DecidableEq, Repr

/-- The fields of an API object that `patchImpress` reads or writes. -/
structure Api where
  goto : Fn
  next : Fn
  prev : Fn
  gotoOrig : Fn
  nextOrig : Fn
  prevOrig : Fn
  deriving DecidableEq, Repr

/-- Modelled from the spec: the host library is not part of the repository; its
capability is "a callable factory keyed by a root identifier, returning an object
exposing `goto(id, duration)`, `next()`, `prev()`".  This is that object for a root,
as the host makes it. -/
def hostApi (root : String) : Api :=
  { goto := .hostGoto root, next := .hostNext root, prev := .hostPrev root
    gotoOrig := .undefined, nextOrig := .undefined, prevOrig := .undefined }

/-- The six assignments of lines 99-104 on an API object.  The variables `prev` and
`next` are read at that moment: they hold functions only once they are bound. -/
def patchApi (w : World) (api : Api) : Api :=
  { prevOrig := api.prev
    nextOrig := api.next
    gotoOrig := api.goto
    prev := if w.fnBound then .adapterPrev else .undefined
    next := if w.fnBound then .adapterNext else .undefined
    goto := .adapterGoto }

/-- The API object of a root in a state.  The host hands out one object per root; the
patched factory assigns to its fields each time it has called the original factory for
that root (lines 98-104), so the object went through `patchApi` once per such call. -/
def apiObject (w : World) (root : String) : Api :=
  Nat.iterate (patchApi w) (w.origFactoryCalls.count root) (hostApi root)

/-- A number of calls `impress(rootId)` of the patched factory in a row. -/
def impressCalls (rootId : Option String) : Nat → World → World
  | 0, w => w
  | n + 1, w => impressCalls rootId n (impressCall rootId w)

/-! ## Facts about `indexOf` and `stepAt` -/

theorem indexOfFrom_not_str (v : JsVal) (hv : ∀ s, v ≠ .str s) (l : List String) (k : Nat) :
    indexOfFrom v l k = -1 := by
  induction l generalizing k with
  | nil => rfl
  | cons a rest ih =>
    simp only [indexOfFrom]
    rw [if_neg (fun h => hv a h.symm)]
    exact ih (k + 1)

theorem indexOfFrom_not_mem (s : String) (l : List String) (hs : s ∉ l) (k : Nat) :
    indexOfFrom (.str s) l k = -1 := by
  induction l generalizing k with
  | nil => rfl
  | cons a rest ih =>
    simp only [indexOfFrom]
    have hne : a ≠ s := fun h => hs (by simp [h])
    rw [if_neg (by simpa using hne)]
    exact ih (fun h => hs (List.mem_cons_of_mem _ h)) (k + 1)

theorem indexOfFrom_getElem? (l : List String) (hnd : l.Nodup) (i : Nat) (s : String)
    (hs : l[i]? = some s) (k : Nat) :
    indexOfFrom (.str s) l k = ((k + i : Nat) : Int) := by
  induction l generalizing k i with
  | nil => simp at hs
  | cons a rest ih =>
    simp only [indexOfFrom]
    cases i with
    | zero =>
      simp at hs
      simp [hs]
    | succ j =>
      simp at hs
      have hmem : s ∈ rest := List.getElem?_mem hs
      have hne : a ≠ s := by
        intro h
        subst h
        exact (List.nodup_cons.mp hnd).1 hmem
      rw [if_neg (by simpa using hne)]
      rw [ih (List.nodup_cons.mp hnd).2 j hs (k + 1)]
      congr 1
      omega

theorem indexOf_getElem? (l : List String) (hnd : l.Nodup) (i : Nat) (s : String)
    (hs : l[i]? = some s) : indexOf l (.str s) = (i : Int) := by
  simpa [indexOf] using indexOfFrom_getElem? l hnd i s hs 0

theorem indexOfFrom_mem_nonneg (s : String) (l : List String) (hs : s ∈ l) (k : Nat) :
    0 ≤ indexOfFrom (.str s) l k := by
  induction l generalizing k with
  | nil => simp at hs
  | cons a rest ih =>
    simp only [indexOfFrom]
    split
    · exact Int.natCast_nonneg k
    · rename_i hne
      have : s ∈ rest := by
        rcases List.mem_cons.mp hs with h | h
        · exact absurd (by rw [h]) hne
        · exact h
      exact ih this (k + 1)

theorem stepAt_getElem? (l : List String) (i : Nat) (s : String) (hs : l[i]? = some s) :
    stepAt l (i : Int) = .str s := by
  simp [stepAt, hs]

/-- A step id that is in `steps` passes the guard of `goto`: the active step is set,
one payload is handed to the channel, and the id is returned. -/
theorem goto_of_mem (w : World) (id : String) (d : JsVal) (hmem : id ∈ w.steps) :
    goto fireAndForget (.str id) d w =
      (.normal (.str id),
        { w with activeStep := .str id, emitted := w.emitted ++ [⟨.str id, d⟩] }) := by
  have h := indexOfFrom_mem_nonneg id w.steps hmem 0
  simp only [goto, indexOf]
  rw [if_neg (by omega)]
  rfl

/-- Anything that is not a string of `steps` is turned away by the guard of `goto`
before any assignment. -/
theorem goto_of_not_mem (emit : Emit) (w : World) (x d : JsVal)
    (hx : ∀ s, x = .str s → s ∉ w.steps) : goto emit x d w = (.normal .null, w) := by
  cases x with
  | str s =>
    simp only [goto, indexOf]
    rw [indexOfFrom_not_mem s w.steps (hx s rfl) 0]
    simp
  | _ => rfl

/-- The sample state is what the constructor leaves behind on a page without the host
library, with root element and empty fragment. -/
theorem abcWorld_constructed (emit : Emit) (k : Nat) :
    asqImpressAdapter emit (some ["a", "b", "c"]) false k ⟨"", false, true, []⟩
      = (.normal (), abcWorld .null k) := rfl

/-- Once the function variables are bound, `getNext` returns the id after the active
one (the first id after the last one or after a value that is not in `steps`). -/
theorem getNext_bound (w : World) (hb : w.fnBound = true) :
    getNext w = .normal (if indexOf w.steps w.activeStep + 1 < (w.steps.length : Int)
      then stepAt w.steps (indexOf w.steps w.activeStep + 1) else stepAt w.steps 0) := by
  unfold getNext
  rw [if_pos hb]

/-- Function `advance` only ever assigns `activeStep`; once the function variables
are bound it runs to the end. -/
theorem advance_frame (k : Nat) : ∀ w : World, w.fnBound = true →
    ∃ v, advance k w = (.normal (), { w with activeStep := v }) := by
  induction k with
  | zero => intro w _; exact ⟨w.activeStep, rfl⟩
  | succ t ih =>
    intro w hb
    obtain ⟨v, hv⟩ := ih { w with activeStep :=
      (if indexOf w.steps w.activeStep + 1 < (w.steps.length : Int)
        then stepAt w.steps (indexOf w.steps w.activeStep + 1) else stepAt w.steps 0) } hb
    refine ⟨v, ?_⟩
    rw [advance, getNext_bound w hb]
    exact hv

/-- A call of the patched factory followed by `gotoOrig` adds one entry to the host
call log and leaves the adapter's variables and the channel log alone. -/
theorem gotoOrig_impressCall_frame (step dur : JsVal) (rootId : Option String) (w : World) :
    (gotoOrig step dur (impressCall rootId w)).activeStep = w.activeStep ∧
      (gotoOrig step dur (impressCall rootId w)).emitted = w.emitted ∧
      (gotoOrig step dur (impressCall rootId w)).hostGotos = w.hostGotos ++ [(step, dur)] := by
  unfold gotoOrig impressCall
  by_cases h : rootKey rootId ∈ w.roots
  · rw [if_pos h]; exact ⟨rfl, rfl, rfl⟩
  · rw [if_neg h]; exact ⟨rfl, rfl, rfl⟩

/-- The patched sample state is reached from the constructed one by loading the host
library and delivering `impress:init`. -/
theorem abcPatched_reached (k : Nat) :
    onImpressInit fireAndForget (loadImpress (abcWorld .null k)) = (.normal (), abcPatched k) := by
  cases k <;> rfl

/-- The id computed by `next` and `getNext` from an active step at index `i`. -/
theorem nextTarget_of_index (l : List String) (hnd : l.Nodup) (i : Nat) (a : String)
    (hi : l[i]? = some a) (hpos : (i + 1) % l.length < l.length) :
    (if indexOf l (.str a) + 1 < (l.length : Int)
      then stepAt l (indexOf l (.str a) + 1) else stepAt l 0)
      = .str l[(i + 1) % l.length] := by
  obtain ⟨hlt, -⟩ := List.getElem?_eq_some.mp hi
  have hb : l[(i + 1) % l.length]? = some l[(i + 1) % l.length] :=
    List.getElem?_eq_getElem hpos
  rw [indexOf_getElem? l hnd i a hi]
  by_cases hlast : i + 1 < l.length
  · rw [if_pos (by omega)]
    have h1 : ((i : Int) + 1) = ((i + 1 : Nat) : Int) := by omega
    rw [h1]
    apply stepAt_getElem?
    rw [← hb, Nat.mod_eq_of_lt hlast]
  · rw [if_neg (by omega)]
    have hz : (i + 1) % l.length = 0 := by
      have : i + 1 = l.length := by omega
      rw [this, Nat.mod_self]
    have h0 : (0 : Int) = ((0 : Nat) : Int) := rfl
    rw [h0]
    apply stepAt_getElem?
    rw [← hb, hz]

/-- Running `advance k` from the step at index `j` ends at index `(j + k) mod |S|`. -/
theorem advance_from_index (k : Nat) : ∀ (w : World) (j : Nat) (a : String),
    w.steps.Nodup → w.fnBound = true → w.steps[j]? = some a → w.activeStep = .str a →
    ∃ b, w.steps[(j + k) % w.steps.length]? = some b ∧
      advance k w = (.normal (), { w with activeStep := .str b }) := by
  induction k with
  | zero =>
    intro w j a _ _ hj hact
    obtain ⟨hlt, -⟩ := List.getElem?_eq_some.mp hj
    refine ⟨a, ?_, ?_⟩
    · rw [Nat.add_zero, Nat.mod_eq_of_lt hlt]; exact hj
    · rw [← hact]; rfl
  | succ t ih =>
    intro w j a hnd hb hj hact
    obtain ⟨hlt, -⟩ := List.getElem?_eq_some.mp hj
    have hpos : (j + 1) % w.steps.length < w.steps.length := Nat.mod_lt _ (by omega)
    have ht := nextTarget_of_index w.steps hnd j a hj hpos
    obtain ⟨b, hb1, hb2⟩ := ih { w with activeStep := .str w.steps[(j + 1) % w.steps.length] }
      ((j + 1) % w.steps.length) w.steps[(j + 1) % w.steps.length] hnd hb
      (List.getElem?_eq_getElem hpos) rfl
    refine ⟨b, ?_, ?_⟩
    · have : (j + (t + 1)) % w.steps.length = ((j + 1) % w.steps.length + t) % w.steps.length := by
        rw [Nat.mod_add_mod]; congr 1; omega
      rw [this]; exact hb1
    · rw [advance, getNext_bound w hb, hact, ht]
      exact hb2

/-! ## The channel model: nesting depth -/

/-- The offset loop leaves the host flags alone and always ends by returning or
throwing. -/
theorem advance_flags (k : Nat) : ∀ w : World,
    (advance k w).2.impressIsFn = w.impressIsFn ∧
      (advance k w).2.impressPatched = w.impressPatched ∧
      (advance k w).1 ≠ .unfinished := by
  induction k with
  | zero => intro w; exact ⟨rfl, rfl, by simp [advance]⟩
  | succ t ih =>
    intro w
    rw [advance]
    unfold getNext
    by_cases hb : w.fnBound = true
    · rw [if_pos hb]; exact ih _
    · rw [if_neg hb]; exact ⟨rfl, rfl, by simp⟩

/-- The callback on a payload with a usable `step`: lines 127-138. -/
theorem onGoto_obj (emit : Emit) (step dur : JsVal) (w : World)
    (hu : step ≠ .undefined) (hn : step ≠ .null) :
    onGoto emit (.obj step dur) w =
      andThen (advance w.offset { w with activeStep := step }) fun _ w2 =>
        if w2.impressIsFn then
          andThen (if !w2.impressPatched then patchImpress emit w2 else (.normal (), w2))
            fun _ w3 => (.normal (), gotoOrig w3.activeStep dur (impressCall none w3))
        else (.normal (), w2) := by
  simp [onGoto, hu, hn]

/-- In a settled state the callback never reaches the channel. -/
theorem onGoto_settled (e e' : Emit) (d : Data) (w : World) (hs : Settled w) :
    onGoto e d w = onGoto e' d w ∧ (onGoto e d w).1 ≠ .unfinished := by
  cases d with
  | undefined => exact ⟨rfl, by simp [onGoto]⟩
  | null => exact ⟨rfl, by simp [onGoto]⟩
  | obj step dur =>
    by_cases hu : step = .undefined
    · subst hu; exact ⟨rfl, by simp [onGoto]⟩
    by_cases hn : step = .null
    · subst hn; exact ⟨rfl, by simp [onGoto]⟩
    rw [onGoto_obj e step dur w hu hn, onGoto_obj e' step dur w hu hn]
    obtain ⟨h1, h2, h3⟩ := advance_flags w.offset { w with activeStep := step }
    rcases hadv : advance w.offset { w with activeStep := step } with ⟨c, w2⟩
    rw [hadv] at h1 h2 h3
    simp only at h1 h2 h3
    cases c with
    | normal u =>
      simp only [andThen]
      cases hfn : w2.impressIsFn with
      | false => simp
      | true =>
        have hp : w2.impressPatched = true := by
          rcases hs with h | h
          · rw [h1, h] at hfn; cases hfn
          · rw [h2]; exact h
        simp [hp, andThen]
    | throw err => simp [andThen]
    | unfinished => exact absurd rfl h3

/-- In a settled state one level of nesting is all the loopback channel uses. -/
theorem loopbackEmit_settled (n : Nat) (p : Payload) (w : World) (hs : Settled w) :
    loopbackEmit (n + 1) p w = loopbackEmit 1 p w ∧
      (loopbackEmit (n + 1) p w).1 ≠ .unfinished := by
  have hs1 : Settled (publish p w) := hs
  show (if (publish p w).onGotoCb then
        onGoto (loopbackEmit n) (.obj p.step p.duration) (publish p w)
      else (.normal (), publish p w)) =
      (if (publish p w).onGotoCb then
        onGoto (loopbackEmit 0) (.obj p.step p.duration) (publish p w)
      else (.normal (), publish p w)) ∧
      (if (publish p w).onGotoCb then
        onGoto (loopbackEmit n) (.obj p.step p.duration) (publish p w)
      else (.normal (), publish p w)).1 ≠ .unfinished
  cases (publish p w).onGotoCb with
  | false => simp
  | true =>
    simp only [if_true]
    exact onGoto_settled _ _ _ _ hs1

/-- Function `goto` uses the channel once, in a state with the same host flags. -/
theorem goto_congr (e e' : Emit) (id d : JsVal) (w : World) (hs : Settled w)
    (h : ∀ p w', Settled w' → e p w' = e' p w' ∧ (e p w').1 ≠ .unfinished) :
    goto e id d w = goto e' id d w ∧ (goto e id d w).1 ≠ .unfinished := by
  cases id with
  | str s =>
    unfold goto
    by_cases hi : indexOf w.steps (.str s) < 0
    · simp only [if_pos hi]
      exact ⟨trivial, by simp⟩
    · simp only [if_neg hi]
      have hs1 : Settled { w with activeStep := .str s } := hs
      obtain ⟨h1, h2⟩ := h ⟨.str s, d⟩ { w with activeStep := .str s } hs1
      rw [h1] at h2 ⊢
      rcases hr : e' ⟨.str s, d⟩ { w with activeStep := .str s } with ⟨c, w2⟩
      rw [hr] at h2
      cases c with
      | normal u => simp [andThen]
      | throw err => simp [andThen]
      | unfinished => exact absurd rfl h2
  | _ => exact ⟨rfl, by simp [goto]⟩

/-- The start-up `goto` uses the channel like `goto` does. -/
theorem gotoStart_congr (e e' : Emit) (w : World) (hs : Settled w)
    (h : ∀ p w', Settled w' → e p w' = e' p w' ∧ (e p w').1 ≠ .unfinished) :
    gotoStart e w = gotoStart e' w ∧ (gotoStart e w).1 ≠ .unfinished := by
  unfold gotoStart getElementFromHash
  by_cases hb : w.fnBound = true
  · simp only [if_pos hb]
    exact goto_congr e e' _ _ w hs h
  · simp only [if_neg hb]
    exact ⟨trivial, by simp⟩

/-- The patching branch of `patchImpress` (lines 85-113). -/
theorem patchImpress_patching (emit : Emit) (w : World) (hp : w.impressPatched = false)
    (hfn : w.impressIsFn = true) (hr : w.rootPresent = true) :
    patchImpress emit w =
      andThen (gotoStart emit { w with initListener := false, impressPatched := true })
        fun _ w2 => (.normal (), w2) := by
  unfold patchImpress
  rw [if_neg (by simp [hp]), if_neg (by simp [hfn]), if_neg (by simp [hr])]

/-- Function `patchImpress` reaches the channel only through its start-up `goto`, which
runs once `impressPatched` is set. -/
theorem patchImpress_congr (e e' : Emit) (w : World)
    (h : ∀ p w', Settled w' → e p w' = e' p w' ∧ (e p w').1 ≠ .unfinished) :
    patchImpress e w = patchImpress e' w ∧ (patchImpress e w).1 ≠ .unfinished := by
  by_cases hp : w.impressPatched = true
  · simp [patchImpress, hp]
  by_cases hfn : w.impressIsFn = true
  · by_cases hr : w.rootPresent = true
    · have hs : Settled { w with initListener := false, impressPatched := true } := Or.inr rfl
      obtain ⟨h1, h2⟩ := gotoStart_congr e e' _ hs h
      rw [patchImpress_patching _ w (by simpa using hp) hfn hr,
        patchImpress_patching _ w (by simpa using hp) hfn hr]
      rw [h1] at h2 ⊢
      rcases hg : gotoStart e' { w with initListener := false, impressPatched := true }
        with ⟨c, w2⟩
      rw [hg] at h2
      cases c with
      | normal u => simp [andThen]
      | throw err => simp [andThen]
      | unfinished => exact absurd rfl h2
    · simp [patchImpress, hp, hfn, hr]
  · by_cases hr : w.rootPresent = true <;> simp [patchImpress, hp, hfn, hr]

/-- The callback reaches the channel only through `patchImpress`. -/
theorem onGoto_congr (e e' : Emit) (d : Data) (w : World)
    (h : ∀ w2, patchImpress e w2 = patchImpress e' w2 ∧ (patchImpress e w2).1 ≠ .unfinished) :
    onGoto e d w = onGoto e' d w ∧ (onGoto e d w).1 ≠ .unfinished := by
  cases d with
  | undefined => exact ⟨rfl, by simp [onGoto]⟩
  | null => exact ⟨rfl, by simp [onGoto]⟩
  | obj step dur =>
    by_cases hu : step = .undefined
    · subst hu; exact ⟨rfl, by simp [onGoto]⟩
    by_cases hn : step = .null
    · subst hn; exact ⟨rfl, by simp [onGoto]⟩
    rw [onGoto_obj e step dur w hu hn, onGoto_obj e' step dur w hu hn]
    obtain ⟨-, -, h3⟩ := advance_flags w.offset { w with activeStep := step }
    rcases hadv : advance w.offset { w with activeStep := step } with ⟨c, w2⟩
    rw [hadv] at h3
    cases c with
    | normal u =>
      simp only [andThen]
      cases hfn : w2.impressIsFn with
      | false => simp
      | true =>
        cases hp : w2.impressPatched with
        | true => simp [andThen]
        | false =>
          obtain ⟨h1, h2⟩ := h w2
          simp only [Bool.not_false, if_true]
          rw [h1] at h2 ⊢
          rcases hq : patchImpress e' w2 with ⟨c2, w3⟩
          rw [hq] at h2
          cases c2 with
          | normal u2 => simp [andThen]
          | throw err => simp [andThen]
          | unfinished => exact absurd rfl h2
    | throw err => simp [andThen]
    | unfinished => exact absurd rfl h3

/-- Depth 2 is enough for the loopback channel: with any greater depth `emitGoto`
ends in the same way, and it never ends as `unfinished`. -/
theorem loopbackEmit_depth (n : Nat) (p : Payload) (w : World) :
    loopbackEmit (n + 2) p w = emitGoto .loopback p w ∧
      (emitGoto .loopback p w).1 ≠ .unfinished := by
  have key : ∀ m, loopbackEmit (m + 2) p w = loopbackEmit 2 p w ∧
      (loopbackEmit (m + 2) p w).1 ≠ .unfinished := by
    intro m
    have hgo := onGoto_congr (loopbackEmit (m + 1)) (loopbackEmit 1)
      (.obj p.step p.duration) (publish p w)
      (fun w2 => patchImpress_congr _ _ w2 (fun q w' hs' => loopbackEmit_settled m q w' hs'))
    show (if (publish p w).onGotoCb then
          onGoto (loopbackEmit (m + 1)) (.obj p.step p.duration) (publish p w)
        else (.normal (), publish p w)) =
        (if (publish p w).onGotoCb then
          onGoto (loopbackEmit 1) (.obj p.step p.duration) (publish p w)
        else (.normal (), publish p w)) ∧
        (if (publish p w).onGotoCb then
          onGoto (loopbackEmit (m + 1)) (.obj p.step p.duration) (publish p w)
        else (.normal (), publish p w)).1 ≠ .unfinished
    cases (publish p w).onGotoCb with
    | false => simp
    | true =>
      simp only [if_true]
      exact hgo
  exact ⟨(key n).1, (key 0).2⟩

/-! ## Local navigation -/

/-- C1: with pairwise-distinct steps and the active step at index `i`, `next()` on a
channel that does not call back returns the step at index `(i + 1) mod |S|`, makes it
the active step, and hands exactly that step to the channel; nothing else changes. -/
theorem next_from_index (w : World) (i : Nat) (a : String) (hnd : w.steps.Nodup)
    (hi : w.steps[i]? = some a) (hact : w.activeStep = .str a) :
    ∃ b, w.steps[(i + 1) % w.steps.length]? = some b ∧
      next (emitGoto .fireAndForget) w =
        (.normal (.str b),
          { w with activeStep := .str b, emitted := w.emitted ++ [⟨.str b, .undefined⟩] }) := by
  obtain ⟨hlt, -⟩ := List.getElem?_eq_some.mp hi
  have hpos : (i + 1) % w.steps.length < w.steps.length := Nat.mod_lt _ (by omega)
  refine ⟨w.steps[(i + 1) % w.steps.length], List.getElem?_eq_getElem hpos, ?_⟩
  have htarget : (if indexOf w.steps w.activeStep + 1 < (w.steps.length : Int)
      then stepAt w.steps (indexOf w.steps w.activeStep + 1) else stepAt w.steps 0)
      = .str w.steps[(i + 1) % w.steps.length] := by
    rw [hact]
    exact nextTarget_of_index w.steps hnd i a hi hpos
  show goto fireAndForget _ .undefined w = _
  rw [htarget]
  exact goto_of_mem w _ .undefined (List.getElem_mem _)

/-- C1 at a concrete state: steps `a, b, c`, active step `c` (the last one). -/
theorem next_from_index_witness :
    ∃ b, (abcWorld (.str "c") 0).steps[(2 + 1) % (abcWorld (.str "c") 0).steps.length]? = some b ∧
      next (emitGoto .fireAndForget) (abcWorld (.str "c") 0) =
        (.normal (.str b),
          { abcWorld (.str "c") 0 with
            activeStep := .str b
            emitted := (abcWorld (.str "c") 0).emitted ++ [⟨.str b, .undefined⟩] }) :=
  next_from_index (abcWorld (.str "c") 0) 2 "c" (by decide) (by decide) (by decide)

/-- C2: with pairwise-distinct steps and the active step at index `i`, `prev()` on a
channel that does not call back returns the step at index `(i - 1 + |S|) mod |S|`,
makes it the active step, and hands exactly that step to the channel; nothing else
changes. -/
theorem prev_from_index (w : World) (i : Nat) (a : String) (hnd : w.steps.Nodup)
    (hi : w.steps[i]? = some a) (hact : w.activeStep = .str a) :
    ∃ b, w.steps[(i + w.steps.length - 1) % w.steps.length]? = some b ∧
      prev (emitGoto .fireAndForget) w =
        (.normal (.str b),
          { w with activeStep := .str b, emitted := w.emitted ++ [⟨.str b, .undefined⟩] }) := by
  obtain ⟨hlt, -⟩ := List.getElem?_eq_some.mp hi
  have hidx := indexOf_getElem? w.steps hnd i a hi
  have hpos : (i + w.steps.length - 1) % w.steps.length < w.steps.length :=
    Nat.mod_lt _ (by omega)
  have hb : w.steps[(i + w.steps.length - 1) % w.steps.length]?
      = some w.steps[(i + w.steps.length - 1) % w.steps.length] :=
    List.getElem?_eq_getElem hpos
  refine ⟨w.steps[(i + w.steps.length - 1) % w.steps.length], hb, ?_⟩
  have htarget : (if indexOf w.steps w.activeStep - 1 ≥ 0
      then stepAt w.steps (indexOf w.steps w.activeStep - 1)
      else stepAt w.steps ((w.steps.length : Int) - 1))
      = .str w.steps[(i + w.steps.length - 1) % w.steps.length] := by
    rw [hact, hidx]
    by_cases hfirst : 1 ≤ i
    · rw [if_pos (by omega)]
      have h1 : ((i : Int) - 1) = ((i - 1 : Nat) : Int) := by omega
      have hm : (i + w.steps.length - 1) % w.steps.length = i - 1 := by
        have : i + w.steps.length - 1 = (i - 1) + w.steps.length := by omega
        rw [this, Nat.add_mod_right, Nat.mod_eq_of_lt (by omega)]
      rw [h1]
      apply stepAt_getElem?
      rw [← hb, hm]
    · rw [if_neg (by omega)]
      have h1 : ((w.steps.length : Int) - 1) = ((w.steps.length - 1 : Nat) : Int) := by omega
      have hm : (i + w.steps.length - 1) % w.steps.length = w.steps.length - 1 := by
        have : i + w.steps.length - 1 = w.steps.length - 1 := by omega
        rw [this, Nat.mod_eq_of_lt (by omega)]
      rw [h1]
      apply stepAt_getElem?
      rw [← hb, hm]
  show goto fireAndForget _ .undefined w = _
  rw [htarget]
  exact goto_of_mem w _ .undefined (List.getElem_mem _)

/-- C2 at a concrete state: steps `a, b, c`, active step `a` (the first one). -/
theorem prev_from_index_witness :
    ∃ b, (abcWorld (.str "a") 0).steps[(0 + (abcWorld (.str "a") 0).steps.length - 1)
        % (abcWorld (.str "a") 0).steps.length]? = some b ∧
      prev (emitGoto .fireAndForget) (abcWorld (.str "a") 0) =
        (.normal (.str b),
          { abcWorld (.str "a") 0 with
            activeStep := .str b
            emitted := (abcWorld (.str "a") 0).emitted ++ [⟨.str b, .undefined⟩] }) :=
  prev_from_index (abcWorld (.str "a") 0) 0 "a" (by decide) (by decide) (by decide)

/-- C3: when the argument is not a string that occurs in the step sequence (a string
outside it, or any value that is not a string, `null` and `undefined` included),
`goto` returns `null` normally, whatever the channel does, and the whole state is as
before: the active step is untouched and nothing was handed to the channel. -/
theorem goto_rejects_non_member (emit : Emit) (w : World) (x d : JsVal)
    (hx : ∀ s, x = .str s → s ∉ w.steps) :
    goto emit x d w = (.normal .null, w) :=
  goto_of_not_mem emit w x d hx

/-- C3 at a concrete state: `goto("z")` on steps `a, b, c` with the loopback channel. -/
theorem goto_rejects_non_member_witness :
    (∀ s, JsVal.str "z" = .str s → s ∉ (abcWorld (.str "b") 1).steps) ∧
      goto (emitGoto .loopback) (.str "z") .undefined (abcWorld (.str "b") 1)
        = (.normal .null, abcWorld (.str "b") 1) :=
  ⟨by intro s hs; cases hs; decide,
   goto_rejects_non_member (emitGoto .loopback) (abcWorld (.str "b") 1) (.str "z") .undefined
     (by intro s hs; cases hs; decide)⟩

/-- C4: for a string `id` of the step sequence and any `duration`, `goto(id, duration)`
on a channel that does not call back returns `id`, makes it the active step, and adds
exactly one payload, with step `id` and the given duration, to what the channel was
handed; nothing else changes. -/
theorem goto_member (w : World) (id : String) (d : JsVal) (hmem : id ∈ w.steps) :
    goto (emitGoto .fireAndForget) (.str id) d w =
      (.normal (.str id),
        { w with activeStep := .str id, emitted := w.emitted ++ [⟨.str id, d⟩] }) :=
  goto_of_mem w id d hmem

/-- C4 at a concrete state: `goto("c", 500)` on steps `a, b, c`. -/
theorem goto_member_witness :
    goto (emitGoto .fireAndForget) (.str "c") (.num 500) (abcWorld .null 0) =
      (.normal (.str "c"),
        { abcWorld .null 0 with
          activeStep := .str "c"
          emitted := (abcWorld .null 0).emitted ++ [⟨.str "c", .num 500⟩] }) :=
  goto_member (abcWorld .null 0) "c" (.num 500) (by decide)

/-! ## Remote navigation -/

/-- C5: what the code does while the host library is loaded but not patched yet: on
steps `a, b, c` with offset 1 the payload with step `b` makes the callback patch the
host first, and the start-up `goto` of `patchImpress` leaves the active step at `a`,
which is also what the host is handed; the claimed step is `c`. -/
theorem remote_apply_unpatched_host :
    (loadImpress (abcWorld .null 1)).steps[(1 + 1) % 3]? = some "c" ∧
      onGoto (emitGoto .fireAndForget) (.obj (.str "b") .undefined) (loadImpress (abcWorld .null 1))
        = (.normal (),
            { loadImpress (abcWorld .null 1) with
              activeStep := .str "a"
              impressPatched := true
              initListener := false
              roots := ["impress"]
              origFactoryCalls := ["impress"]
              emitted := [⟨.str "a", .num 0⟩]
              hostGotos := [(.str "a", .undefined)] }) := by
  decide

/-- The sibling path of C5, which does what the claim says: with pairwise-distinct
steps, in an adapter whose constructor has
returned and whose host library is absent or already patched, a payload whose step is
the one at index `j` leaves the active step at index `(j + offset) mod |S|`, nothing
is handed to the channel, and when the host is present its original `goto` is called
once, with that step and the payload's duration. -/
theorem remote_apply_offset (emit : Emit) (w : World) (j : Nat) (a : String) (dur : JsVal)
    (hnd : w.steps.Nodup) (hj : w.steps[j]? = some a) (hb : w.fnBound = true)
    (hs : w.impressIsFn = false ∨ w.impressPatched = true) :
    ∃ b r, w.steps[(j + w.offset) % w.steps.length]? = some b ∧
      onGoto emit (.obj (.str a) dur) w = (.normal (), r) ∧
      r.activeStep = .str b ∧ r.emitted = w.emitted ∧
      r.hostGotos = (if w.impressIsFn then w.hostGotos ++ [(.str b, dur)] else w.hostGotos) := by
  obtain ⟨b, hb1, hb2⟩ := advance_from_index w.offset { w with activeStep := .str a } j a
    hnd hb hj rfl
  rw [onGoto_obj emit (.str a) dur w (by simp) (by simp), hb2]
  cases hfn : w.impressIsFn with
  | false =>
    refine ⟨b, { w with activeStep := .str b }, hb1, ?_, rfl, rfl, by simp⟩
    simp [andThen, hfn]
  | true =>
    have hp : w.impressPatched = true := by
      rcases hs with h | h
      · rw [hfn] at h; cases h
      · exact h
    refine ⟨b, gotoOrig (.str b) dur (impressCall none { w with activeStep := .str b }),
      hb1, ?_, ?_, ?_, ?_⟩
    · simp [andThen, hfn, hp]
    · exact (gotoOrig_impressCall_frame _ _ _ _).1
    · exact (gotoOrig_impressCall_frame _ _ _ _).2.1
    · exact (gotoOrig_impressCall_frame _ _ _ _).2.2

/-- The sibling path of C5 at a concrete state: steps `a, b, c`, offset 1, no host library,
payload with step `b`. -/
theorem remote_apply_offset_witness :
    ∃ b r, (abcWorld .null 1).steps[(1 + (abcWorld .null 1).offset)
        % (abcWorld .null 1).steps.length]? = some b ∧
      onGoto (emitGoto .fireAndForget) (.obj (.str "b") .undefined) (abcWorld .null 1)
        = (.normal (), r) ∧
      r.activeStep = .str b ∧ r.emitted = (abcWorld .null 1).emitted ∧
      r.hostGotos = (if (abcWorld .null 1).impressIsFn
        then (abcWorld .null 1).hostGotos ++ [(.str b, .undefined)]
        else (abcWorld .null 1).hostGotos) :=
  remote_apply_offset (emitGoto .fireAndForget) (abcWorld .null 1) 1 "b" .undefined
    (by decide) (by decide) (by decide) (by decide)

/-- C6: the callback returns at once, leaving the whole state as it was (so the active
step, the host call log and the channel log are unchanged) and without throwing, when
it is handed `undefined`, `null`, an object without `step` (`step` reads as
`undefined`) or an object whose `step` is `null`; this holds in every state, for every
offset and every channel. -/
theorem malformed_payload_ignored (emit : Emit) (w : World) (dur : JsVal) :
    onGoto emit .undefined w = (.normal (), w) ∧
      onGoto emit .null w = (.normal (), w) ∧
      onGoto emit (.obj .undefined dur) w = (.normal (), w) ∧
      onGoto emit (.obj .null dur) w = (.normal (), w) := by
  refine ⟨rfl, rfl, ?_, ?_⟩ <;> simp [onGoto]

/-- C7: what the code does while the host library is loaded but not patched yet: on
steps `a, b, c` with offset 1 and fragment `#/b`, the payload with step `b` and
duration 300 makes the callback run `patchImpress`, whose start-up `goto` hands a
payload to the channel and resets the active step to `b`; the host's original `goto`
then gets `b`, not the offset-advanced step `c`. -/
theorem remote_unpatched_publishes :
    (advance 1 { loadImpress { abcWorld .null 1 with hash := "#/b" } with
        activeStep := .str "b" }).2.activeStep = .str "c" ∧
      (onGoto (emitGoto .fireAndForget) (.obj (.str "b") (.num 300))
        (loadImpress { abcWorld .null 1 with hash := "#/b" })).2.emitted
          = [⟨.str "b", .num 0⟩] ∧
      (onGoto (emitGoto .fireAndForget) (.obj (.str "b") (.num 300))
        (loadImpress { abcWorld .null 1 with hash := "#/b" })).2.hostGotos
          = [(.str "b", .num 300)] := by
  decide

/-- The sibling path of C7, which does what the claim says: for a payload whose step
is neither `undefined` nor `null`, in an
adapter whose constructor has returned and whose host library is present and already
patched, the callback returns normally, hands nothing to the channel, and calls the
host's original `goto` exactly once, with the active step reached after the offset
advance (the final active step) and the payload's duration. -/
theorem remote_drives_patched_host (emit : Emit) (w : World) (step dur : JsVal)
    (hu : step ≠ .undefined) (hn : step ≠ .null) (hb : w.fnBound = true)
    (hfn : w.impressIsFn = true) (hp : w.impressPatched = true) :
    ∃ r, onGoto emit (.obj step dur) w = (.normal (), r) ∧
      advance w.offset { w with activeStep := step }
        = (.normal (), { w with activeStep := r.activeStep }) ∧
      r.hostGotos = w.hostGotos ++ [(r.activeStep, dur)] ∧
      r.emitted = w.emitted := by
  obtain ⟨v, hv⟩ := advance_frame w.offset { w with activeStep := step } hb
  refine ⟨gotoOrig v dur (impressCall none { w with activeStep := v }), ?_, ?_, ?_, ?_⟩
  · rw [onGoto_obj emit step dur w hu hn, hv]; simp [andThen, hfn, hp]
  · rw [hv, (gotoOrig_impressCall_frame v dur none { w with activeStep := v }).1]
  · rw [(gotoOrig_impressCall_frame v dur none { w with activeStep := v }).1]
    exact (gotoOrig_impressCall_frame _ _ _ _).2.2
  · exact (gotoOrig_impressCall_frame _ _ _ _).2.1

/-- The sibling path of C7 at a concrete state: steps `a, b, c`, offset 1, host patched, payload
with step `b` and duration 300. -/
theorem remote_drives_patched_host_witness :
    ∃ r, onGoto (emitGoto .fireAndForget) (.obj (.str "b") (.num 300)) (abcPatched 1)
        = (.normal (), r) ∧
      advance (abcPatched 1).offset { abcPatched 1 with activeStep := .str "b" }
        = (.normal (), { abcPatched 1 with activeStep := r.activeStep }) ∧
      r.hostGotos = (abcPatched 1).hostGotos ++ [(r.activeStep, .num 300)] ∧
      r.emitted = (abcPatched 1).emitted :=
  remote_drives_patched_host (emitGoto .fireAndForget) (abcPatched 1) (.str "b") (.num 300)
    (by decide) (by decide) (by decide) (by decide) (by decide)

/-! ## Construction and start-up -/

/-- C8: what the code does at the claim's input.  With `standalone` true the
constructor reaches `goto(getElementFromHash() || steps[0], 0)` (line 72) while the
variable `getElementFromHash` still holds `undefined` (it is assigned at line 181), so
the call throws: for every step list, offset, page and channel the constructor ends
with that exception, the active step is still `null`, nothing was handed to the
channel, and the `onGoto` callback was never registered. -/
theorem standalone_construction_throws (emit : Emit) (slidesTree : Option (List String))
    (k : Nat) (page : Page) :
    (asqImpressAdapter emit slidesTree true k page).1
        = .throw (.notAFunction "getElementFromHash") ∧
      (asqImpressAdapter emit slidesTree true k page).2.activeStep = .null ∧
      (asqImpressAdapter emit slidesTree true k page).2.emitted = [] ∧
      (asqImpressAdapter emit slidesTree true k page).2.onGotoCb = false := by
  simp [asqImpressAdapter, gotoStart, getElementFromHash, andThen]

/-- C9: what the code does at three inputs of the claim, on steps `a, b, c`.
(1) Not standalone, host library loaded after construction, fragment `#/z` (no such
step): the `impress:init` event runs `patchImpress`, whose start-up `goto("z", 0)` is
turned away, so the active step stays `null` instead of becoming the first step `a`,
and nothing is handed to the channel.
(2) Standalone, fragment `#/b`: the constructor throws before `goto` is called.
(3) Not standalone, host library already loaded, fragment `#/b`: `patchImpress` runs
inside the constructor and throws at the same call, after patching the host. -/
theorem start_step_selection_fails :
    (asqImpressAdapter (emitGoto .fireAndForget) (some ["a", "b", "c"]) false 0
        ⟨"#/z", false, true, []⟩
      = (.normal (), { abcWorld .null 0 with hash := "#/z" }) ∧
     onImpressInit (emitGoto .fireAndForget)
        (loadImpress { abcWorld .null 0 with hash := "#/z" })
      = (.normal (),
          { loadImpress { abcWorld .null 0 with hash := "#/z" } with
            impressPatched := true
            initListener := false
            activeStep := .null
            emitted := [] })) ∧
    (asqImpressAdapter (emitGoto .fireAndForget) (some ["a", "b", "c"]) true 0
        ⟨"#/b", false, true, []⟩).1 = .throw (.notAFunction "getElementFromHash") ∧
    (asqImpressAdapter (emitGoto .fireAndForget) (some ["a", "b", "c"]) true 0
        ⟨"#/b", false, true, []⟩).2.activeStep = .null ∧
    (asqImpressAdapter (emitGoto .fireAndForget) (some ["a", "b", "c"]) false 0
        ⟨"#/b", true, true, []⟩).1 = .throw (.notAFunction "getElementFromHash") ∧
    (asqImpressAdapter (emitGoto .fireAndForget) (some ["a", "b", "c"]) false 0
        ⟨"#/b", true, true, []⟩).2.activeStep = .null := by
  decide

/-! ## Navigation from the unset state -/

/-- C10 (as stated) fails on the loopback channel of the example: on steps `a, b, c`
with offset 1 and no active step, `next()` publishes `a`, the channel hands the
payload straight back, the callback advances by the offset, and `next()` returns `b`
with `b` active; likewise `prev()` returns `a`, not the last step `c`. -/
theorem next_from_unset_loopback :
    (abcWorld .null 1).activeStep = .null ∧
      (abcWorld .null 1).steps[0]? = some "a" ∧
      next (emitGoto .loopback) (abcWorld .null 1) =
        (.normal (.str "b"),
          { abcWorld .null 1 with
            activeStep := .str "b"
            emitted := [⟨.str "a", .undefined⟩] }) ∧
      prev (emitGoto .loopback) (abcWorld .null 1) =
        (.normal (.str "a"),
          { abcWorld .null 1 with
            activeStep := .str "a"
            emitted := [⟨.str "c", .undefined⟩] }) := by
  decide

/-- C10 (amended): on a channel that does not call back, for a non-empty step sequence
and an unset (`null`) active step, the index lookup gives `-1`, `next()` returns and
activates the first step, and `prev()` returns and activates the last step; each hands
that step to the channel once and changes nothing else. -/
theorem next_prev_from_unset (w : World) (hne : w.steps ≠ []) (hact : w.activeStep = .null) :
    indexOf w.steps w.activeStep = -1 ∧
      (∃ a, w.steps[0]? = some a ∧
        next (emitGoto .fireAndForget) w =
          (.normal (.str a),
            { w with activeStep := .str a, emitted := w.emitted ++ [⟨.str a, .undefined⟩] })) ∧
      (∃ z, w.steps[w.steps.length - 1]? = some z ∧
        prev (emitGoto .fireAndForget) w =
          (.normal (.str z),
            { w with activeStep := .str z, emitted := w.emitted ++ [⟨.str z, .undefined⟩] })) := by
  have hlen : 0 < w.steps.length := List.length_pos.mpr hne
  have hidx : indexOf w.steps w.activeStep = -1 := by
    rw [hact]
    exact indexOfFrom_not_str .null (fun s h => by cases h) w.steps 0
  have h0 : w.steps[0]? = some w.steps[0] := List.getElem?_eq_getElem hlen
  have hl : w.steps[w.steps.length - 1]? = some w.steps[w.steps.length - 1] :=
    List.getElem?_eq_getElem (by omega)
  refine ⟨hidx, ⟨w.steps[0], h0, ?_⟩, ⟨w.steps[w.steps.length - 1], hl, ?_⟩⟩
  · have htarget : (if indexOf w.steps w.activeStep + 1 < (w.steps.length : Int)
        then stepAt w.steps (indexOf w.steps w.activeStep + 1) else stepAt w.steps 0)
        = .str w.steps[0] := by
      rw [hidx, if_pos (by omega)]
      exact stepAt_getElem? w.steps 0 _ h0
    show goto fireAndForget _ .undefined w = _
    rw [htarget]
    exact goto_of_mem w _ .undefined (List.getElem_mem _)
  · have htarget : (if indexOf w.steps w.activeStep - 1 ≥ 0
        then stepAt w.steps (indexOf w.steps w.activeStep - 1)
        else stepAt w.steps ((w.steps.length : Int) - 1))
        = .str w.steps[w.steps.length - 1] := by
      rw [hidx, if_neg (by omega)]
      have h1 : ((w.steps.length : Int) - 1) = ((w.steps.length - 1 : Nat) : Int) := by omega
      rw [h1]
      exact stepAt_getElem? w.steps _ _ hl
    show goto fireAndForget _ .undefined w = _
    rw [htarget]
    exact goto_of_mem w _ .undefined (List.getElem_mem _)

/-- C10 (amended) at a concrete state: steps `a, b, c`, nothing active yet. -/
theorem next_prev_from_unset_witness :
    indexOf (abcWorld .null 0).steps (abcWorld .null 0).activeStep = -1 ∧
      (∃ a, (abcWorld .null 0).steps[0]? = some a ∧
        next (emitGoto .fireAndForget) (abcWorld .null 0) =
          (.normal (.str a),
            { abcWorld .null 0 with
              activeStep := .str a
              emitted := (abcWorld .null 0).emitted ++ [⟨.str a, .undefined⟩] })) ∧
      (∃ z, (abcWorld .null 0).steps[(abcWorld .null 0).steps.length - 1]? = some z ∧
        prev (emitGoto .fireAndForget) (abcWorld .null 0) =
          (.normal (.str z),
            { abcWorld .null 0 with
              activeStep := .str z
              emitted := (abcWorld .null 0).emitted ++ [⟨.str z, .undefined⟩] })) :=
  next_prev_from_unset (abcWorld .null 0) (by decide) (by decide)

/-! ## What the adapter's functions leave alone -/

theorem Keeps.same (w : World) : Keeps w w :=
  ⟨rfl, rfl, rfl, rfl, rfl, rfl, rfl, rfl, rfl, rfl, rfl, rfl, id, id, id⟩

theorem Keeps.andKeeps {a b c : World} (h1 : Keeps a b) (h2 : Keeps b c) : Keeps a c :=
  ⟨h2.steps.trans h1.steps, h2.offset.trans h1.offset, h2.standalone.trans h1.standalone,
   h2.rootPresent.trans h1.rootPresent, h2.fnBound.trans h1.fnBound,
   h2.onGotoCb.trans h1.onGotoCb, h2.hashListener.trans h1.hashListener,
   h2.stepEnterListener.trans h1.stepEnterListener, h2.hash.trans h1.hash,
   h2.lastHash.trans h1.lastHash, h2.impressIsFn.trans h1.impressIsFn,
   h2.stepElementIds.trans h1.stepElementIds, fun h => h2.patched (h1.patched h),
   fun h => h2.log (h1.log h), fun h => h2.cache (h1.cache h)⟩

/-- An assignment to `activeStep`. -/
theorem keeps_setActive (w : World) (v : JsVal) : Keeps w { w with activeStep := v } :=
  ⟨rfl, rfl, rfl, rfl, rfl, rfl, rfl, rfl, rfl, rfl, rfl, rfl, id, id, id⟩

/-- Recording a payload whose step is in the sequence. -/
theorem keeps_publish (p : Payload) (w : World) (hp : isStep w.steps p.step = true) :
    Keeps w (publish p w) :=
  ⟨rfl, rfl, rfl, rfl, rfl, rfl, rfl, rfl, rfl, rfl, rfl, rfl, id,
   fun h q hq => by
     rcases List.mem_append.mp hq with hq | hq
     · exact h q hq
     · rw [List.mem_singleton.mp hq]; exact hp,
   id⟩

theorem keeps_gotoOrig (step dur : JsVal) (w : World) : Keeps w (gotoOrig step dur w) :=
  ⟨rfl, rfl, rfl, rfl, rfl, rfl, rfl, rfl, rfl, rfl, rfl, rfl, id, id, id⟩

theorem keeps_impressCall (rootId : Option String) (w : World) :
    Keeps w (impressCall rootId w) := by
  unfold impressCall
  by_cases h : rootKey rootId ∈ w.roots
  · rw [if_pos h]; exact Keeps.same w
  · rw [if_neg h]
    refine ⟨rfl, rfl, rfl, rfl, rfl, rfl, rfl, rfl, rfl, rfl, rfl, rfl, id, id, ?_⟩
    intro hc
    refine ⟨?_, ?_⟩
    · show w.origFactoryCalls ++ [rootKey rootId] = w.roots ++ [rootKey rootId]
      rw [hc.1]
    · show (w.roots ++ [rootKey rootId]).Nodup
      rw [List.nodup_append]
      refine ⟨hc.2, List.nodup_singleton _, ?_⟩
      intro a ha hb
      rw [List.mem_singleton.mp hb] at ha
      exact h ha

theorem keeps_advance (k : Nat) : ∀ w : World, Keeps w (advance k w).2 := by
  induction k with
  | zero => intro w; exact Keeps.same w
  | succ t ih =>
    intro w
    rw [advance]
    unfold getNext
    by_cases hb : w.fnBound = true
    · rw [if_pos hb]
      exact (keeps_setActive w _).andKeeps (ih _)
    · rw [if_neg hb]; exact Keeps.same w

/-- A step that passes the guard of `goto` is in the sequence. -/
theorem isStep_of_indexOf (steps : List String) (s : String)
    (h : ¬ indexOf steps (.str s) < 0) : isStep steps (.str s) = true := by
  by_contra hn
  have hs : s ∉ steps := by simpa [isStep] using hn
  have := indexOfFrom_not_mem s steps hs 0
  unfold indexOf at h
  omega

theorem keeps_andThen {α β : Type} (w : World) (r : Outcome α) (k : α → World → Outcome β)
    (hr : Keeps w r.2) (hk : ∀ v w', Keeps w w' → Keeps w (k v w').2) :
    Keeps w (andThen r k).2 := by
  rcases r with ⟨c, w1⟩
  cases c with
  | normal v => exact hk v w1 hr
  | throw e => exact hr
  | unfinished => exact hr

theorem keeps_goto (e : Emit) (he : EmitKeeps e) (id d : JsVal) (w : World) :
    Keeps w (goto e id d w).2 := by
  cases id with
  | str s =>
    unfold goto
    by_cases hi : indexOf w.steps (.str s) < 0
    · simp only [if_pos hi]; exact Keeps.same w
    · simp only [if_neg hi]
      apply keeps_andThen
      · exact (keeps_setActive w (.str s)).andKeeps
          (he ⟨.str s, d⟩ { w with activeStep := .str s } (isStep_of_indexOf w.steps s hi))
      · intro _ w' h; exact h
  | _ => exact Keeps.same w

theorem keeps_next (e : Emit) (he : EmitKeeps e) (w : World) : Keeps w (next e w).2 :=
  keeps_goto e he _ _ w

theorem keeps_prev (e : Emit) (he : EmitKeeps e) (w : World) : Keeps w (prev e w).2 :=
  keeps_goto e he _ _ w

theorem keeps_gotoStart (e : Emit) (he : EmitKeeps e) (w : World) :
    Keeps w (gotoStart e w).2 := by
  unfold gotoStart getElementFromHash
  by_cases hb : w.fnBound = true
  · simp only [if_pos hb]; exact keeps_goto e he _ _ w
  · simp only [if_neg hb]; exact Keeps.same w

theorem keeps_patchImpress (e : Emit) (he : EmitKeeps e) (w : World) :
    Keeps w (patchImpress e w).2 := by
  by_cases hp : w.impressPatched = true
  · unfold patchImpress; rw [if_pos hp]; exact Keeps.same w
  by_cases hfn : w.impressIsFn = true
  · by_cases hr : w.rootPresent = true
    · rw [patchImpress_patching e w (by simpa using hp) hfn hr]
      have h1 : Keeps w { w with initListener := false, impressPatched := true } :=
        ⟨rfl, rfl, rfl, rfl, rfl, rfl, rfl, rfl, rfl, rfl, rfl, rfl, fun _ => rfl, id, id⟩
      refine h1.andKeeps (keeps_andThen _ _ _ (keeps_gotoStart e he _) ?_)
      intro _ w' h; exact h
    · unfold patchImpress
      rw [if_neg hp, if_neg (by simp [hfn]), if_pos (by simp [hr])]
      exact Keeps.same w
  · unfold patchImpress
    rw [if_neg hp, if_pos (by simp [hfn])]
    by_cases hr : w.rootPresent = true
    · rw [if_pos hr]
      exact ⟨rfl, rfl, rfl, rfl, rfl, rfl, rfl, rfl, rfl, rfl, rfl, rfl, id, id, id⟩
    · rw [if_neg hr]; exact Keeps.same w

theorem keeps_onGoto (e : Emit) (he : EmitKeeps e) (d : Data) (w : World) :
    Keeps w (onGoto e d w).2 := by
  cases d with
  | undefined => exact Keeps.same w
  | null => exact Keeps.same w
  | obj step dur =>
    by_cases hu : step = .undefined
    · subst hu; simp only [onGoto, true_or, if_true]; exact Keeps.same w
    by_cases hn : step = .null
    · subst hn; simp only [onGoto, or_true, if_true]; exact Keeps.same w
    rw [onGoto_obj e step dur w hu hn]
    refine (keeps_setActive w step).andKeeps (keeps_andThen _ _ _ (keeps_advance _ _) ?_)
    intro _ w2 h2
    by_cases hfn : w2.impressIsFn = true
    · rw [if_pos hfn]
      apply keeps_andThen
      · by_cases hp : w2.impressPatched = true
        · rw [if_neg (by simp [hp])]; exact h2
        · rw [if_pos (by simpa using hp)]
          exact h2.andKeeps (keeps_patchImpress e he w2)
      · intro _ w3 h3
        exact h3.andKeeps ((keeps_impressCall none w3).andKeeps (keeps_gotoOrig _ _ _))
    · rw [if_neg hfn]; exact h2

theorem keeps_onHashChange (e : Emit) (he : EmitKeeps e) (w : World) :
    Keeps w (onHashChange e w).2 := by
  unfold onHashChange getElementFromHash
  by_cases hh : w.hash ≠ w.lastHash
  · rw [if_pos hh]
    by_cases hb : w.fnBound = true
    · simp only [if_pos hb]
      apply keeps_andThen
      · exact keeps_goto e he _ _ w
      · intro _ w' h; exact h
    · simp only [if_neg hb]; exact Keeps.same w
  · rw [if_neg hh]; exact Keeps.same w

theorem keeps_onImpressInit (e : Emit) (he : EmitKeeps e) (w : World) :
    Keeps w (onImpressInit e w).2 := by
  unfold onImpressInit
  by_cases hl : w.initListener = true
  · rw [if_pos hl]; exact keeps_patchImpress e he w
  · rw [if_neg hl]; exact Keeps.same w

theorem emitKeeps_fireAndForget : EmitKeeps fireAndForget :=
  fun p w hp => keeps_publish p w hp

theorem emitKeeps_loopbackEmit (n : Nat) : EmitKeeps (loopbackEmit n) := by
  induction n with
  | zero => exact fun p w hp => keeps_publish p w hp
  | succ m ih =>
    intro p w hp
    show Keeps w (if (publish p w).onGotoCb then
        onGoto (loopbackEmit m) (.obj p.step p.duration) (publish p w)
      else (.normal (), publish p w)).2
    by_cases hc : (publish p w).onGotoCb = true
    · rw [if_pos hc]
      exact (keeps_publish p w hp).andKeeps (keeps_onGoto _ ih _ _)
    · rw [if_neg hc]; exact keeps_publish p w hp

/-- Both channels leave alone what the adapter leaves alone. -/
theorem emitKeeps_emitGoto (ch : Channel) : EmitKeeps (emitGoto ch) := by
  cases ch with
  | fireAndForget => exact emitKeeps_fireAndForget
  | loopback => exact emitKeeps_loopbackEmit 2

theorem Stable.unchanged (w : World) : Stable w w :=
  ⟨rfl, rfl, rfl, rfl, rfl, rfl, rfl, rfl, rfl, id, id, id⟩

theorem Stable.andStable {a b c : World} (h1 : Stable a b) (h2 : Stable b c) : Stable a c :=
  ⟨h2.steps.trans h1.steps, h2.offset.trans h1.offset, h2.standalone.trans h1.standalone,
   h2.rootPresent.trans h1.rootPresent, h2.fnBound.trans h1.fnBound,
   h2.onGotoCb.trans h1.onGotoCb, h2.hashListener.trans h1.hashListener,
   h2.stepEnterListener.trans h1.stepEnterListener,
   h2.stepElementIds.trans h1.stepElementIds, fun h => h2.patched (h1.patched h),
   fun h => h2.log (h1.log h), fun h => h2.cache (h1.cache h)⟩

theorem Keeps.stable {w w' : World} (h : Keeps w w') : Stable w w' :=
  ⟨h.steps, h.offset, h.standalone, h.rootPresent, h.fnBound, h.onGotoCb, h.hashListener,
   h.stepEnterListener, h.stepElementIds, h.patched, h.log, h.cache⟩

/-- A write to the fragment, to its cache, or the arrival of the host library. -/
theorem stable_page (w : World) (h l : String) (f : Bool) :
    Stable w { w with hash := h, lastHash := l, impressIsFn := f } :=
  ⟨rfl, rfl, rfl, rfl, rfl, rfl, rfl, rfl, rfl, id, id, id⟩

/-- Every event leaves the configuration alone and maintains the two logs. -/
theorem step_stable (e : Emit) (he : EmitKeeps e) (ev : Event) (w : World) :
    Stable w (step e ev w) := by
  cases ev with
  | goto id d => exact (keeps_goto e he id d w).stable
  | next => exact (keeps_next e he w).stable
  | prev => exact (keeps_prev e he w).stable
  | fragment h =>
    have h1 : Stable w { w with hash := h } := stable_page w h w.lastHash w.impressIsFn
    show Stable w (if w.hashListener then (onHashChange e { w with hash := h }).2
      else { w with hash := h })
    by_cases hl : w.hashListener = true
    · rw [if_pos hl]; exact h1.andStable (keeps_onHashChange e he _).stable
    · rw [if_neg hl]; exact h1
  | remote d =>
    show Stable w (if w.onGotoCb then (onGoto e d w).2 else w)
    by_cases hl : w.onGotoCb = true
    · rw [if_pos hl]; exact (keeps_onGoto e he d w).stable
    · rw [if_neg hl]; exact Stable.unchanged w
  | stepEnter id =>
    show Stable w (if w.stepEnterListener then onStepEnter id w else w)
    by_cases hl : w.stepEnterListener = true
    · rw [if_pos hl]; exact stable_page w _ _ w.impressIsFn
    · rw [if_neg hl]; exact Stable.unchanged w
  | loadHost => exact stable_page w w.hash w.lastHash true
  | init => exact (keeps_onImpressInit e he w).stable
  | factory r =>
    show Stable w (if w.impressPatched then impressCall r w else w)
    by_cases hl : w.impressPatched = true
    · rw [if_pos hl]; exact (keeps_impressCall r w).stable
    · rw [if_neg hl]; exact Stable.unchanged w

theorem run_stable (e : Emit) (he : EmitKeeps e) (evs : List Event) :
    ∀ w : World, Stable w (run e evs w) := by
  induction evs with
  | nil => intro w; exact Stable.unchanged w
  | cons ev rest ih => intro w; exact (step_stable e he ev w).andStable (ih _)

/-- Function `goto` hands the channel a payload whose step is the active step and a
step of the sequence: a channel that ignores every other payload is not told apart. -/
theorem goto_onlyActiveSteps (e : Emit) (id d : JsVal) (w : World) :
    goto (onlyActiveSteps e) id d w = goto e id d w := by
  cases id with
  | str s =>
    unfold goto
    by_cases hi : indexOf w.steps (.str s) < 0
    · simp only [if_pos hi]
    · simp only [if_neg hi]
      have hcall : onlyActiveSteps e ⟨.str s, d⟩ { w with activeStep := .str s }
          = e ⟨.str s, d⟩ { w with activeStep := .str s } := by
        unfold onlyActiveSteps
        rw [if_pos ⟨rfl, isStep_of_indexOf w.steps s hi⟩]
      rw [hcall]
  | _ => rfl

theorem step_onlyActiveSteps (e : Emit) (ev : Event) (w : World) :
    step (onlyActiveSteps e) ev w = step e ev w := by
  have hg : goto (onlyActiveSteps e) = goto e := by
    funext id d w; exact goto_onlyActiveSteps e id d w
  have hs : gotoStart (onlyActiveSteps e) = gotoStart e := by
    funext w; unfold gotoStart; rw [hg]
  have hp : patchImpress (onlyActiveSteps e) = patchImpress e := by
    funext w; unfold patchImpress; rw [hs]
  have ho : onGoto (onlyActiveSteps e) = onGoto e := by
    funext d w; unfold onGoto; rw [hp]
  have hh : onHashChange (onlyActiveSteps e) = onHashChange e := by
    funext w; unfold onHashChange; rw [hg]
  cases ev with
  | goto id d => show (goto _ id d w).2 = (goto _ id d w).2; rw [hg]
  | next => show (goto _ _ _ w).2 = (goto _ _ _ w).2; rw [hg]
  | prev => show (goto _ _ _ w).2 = (goto _ _ _ w).2; rw [hg]
  | fragment h => unfold step; rw [hh]
  | remote d => unfold step; rw [ho]
  | stepEnter id => rfl
  | loadHost => rfl
  | init => unfold step onImpressInit; rw [hp]
  | factory r => rfl

theorem run_onlyActiveSteps (e : Emit) (evs : List Event) :
    ∀ w : World, run (onlyActiveSteps e) evs w = run e evs w := by
  induction evs with
  | nil => intro w; rfl
  | cons ev rest ih => intro w; show run _ rest (step _ ev w) = run _ rest (step _ ev w)
                       rw [step_onlyActiveSteps, ih]

/-! ## Ordering of publish and state change -/

/-- C11: over every sequence of events (local `goto`/`next`/`prev` calls with any
arguments, fragment changes, remote payloads of any shape, host events), on either
channel: every payload handed to the channel carries a step of the step sequence,
which no event changes; and every payload is handed over at a moment when its step is
the active step and a step of the sequence, since for any channel behaviour `e` a
channel that ignores every other payload gives the same run.  So a step that `goto`
turns away is never published. -/
theorem published_steps_are_active_steps (ch : Channel) (e : Emit) (evs : List Event)
    (w : World) (hlog : LogOK w) :
    LogOK (run (emitGoto ch) evs w) ∧
      (run (emitGoto ch) evs w).steps = w.steps ∧
      run (onlyActiveSteps e) evs w = run e evs w :=
  ⟨(run_stable _ (emitKeeps_emitGoto ch) evs w).log hlog,
   (run_stable _ (emitKeeps_emitGoto ch) evs w).steps,
   run_onlyActiveSteps e evs w⟩

/-- C11 at a concrete run on the loopback channel, with a remote payload and a local
`goto` that both name a step outside the sequence. -/
theorem published_steps_are_active_steps_witness :
    LogOK (run (emitGoto .loopback)
        [.next, .remote (.obj (.str "z") .undefined), .goto (.str "z") .undefined,
         .loadHost, .fragment "#/c", .prev, .init] (abcWorld .null 1)) ∧
      (run (emitGoto .loopback)
        [.next, .remote (.obj (.str "z") .undefined), .goto (.str "z") .undefined,
         .loadHost, .fragment "#/c", .prev, .init] (abcWorld .null 1)).steps
        = (abcWorld .null 1).steps ∧
      run (onlyActiveSteps fireAndForget)
        [.next, .remote (.obj (.str "z") .undefined), .goto (.str "z") .undefined,
         .loadHost, .fragment "#/c", .prev, .init] (abcWorld .null 1)
        = run fireAndForget
        [.next, .remote (.obj (.str "z") .undefined), .goto (.str "z") .undefined,
         .loadHost, .fragment "#/c", .prev, .init] (abcWorld .null 1) :=
  published_steps_are_active_steps .loopback fireAndForget
    [.next, .remote (.obj (.str "z") .undefined), .goto (.str "z") .undefined,
     .loadHost, .fragment "#/c", .prev, .init] (abcWorld .null 1)
    (by intro p hp; cases hp)

/-! ## The fragment -/

/-- C12: the step-enter listener for an element with id `e` writes `"#/" + e` to the
fragment and to `lastHash`; in any later state `w'` where both still hold what the
listener wrote, the fragment-change listener returns without a navigation call, on any
channel: the whole state (active step, channel log) is unchanged. -/
theorem loop_suppression (emit : Emit) (e : String) (w w' : World)
    (hh : w'.hash = (onStepEnter e w).hash) (hl : w'.lastHash = (onStepEnter e w).lastHash) :
    (onStepEnter e w).hash = "#/" ++ e ∧
      (onStepEnter e w).lastHash = "#/" ++ e ∧
      onHashChange emit w' = (.normal (), w') := by
  refine ⟨rfl, rfl, ?_⟩
  have heq : w'.hash = w'.lastHash := by rw [hh, hl]; rfl
  unfold onHashChange
  rw [if_neg (by simpa using heq)]

/-- C12 at a concrete state: step `b` is entered, then the notification arrives. -/
theorem loop_suppression_witness :
    (onStepEnter "b" (abcPatched 0)).hash = "#/" ++ "b" ∧
      (onStepEnter "b" (abcPatched 0)).lastHash = "#/" ++ "b" ∧
      onHashChange (emitGoto .loopback) (onStepEnter "b" (abcPatched 0))
        = (.normal (), onStepEnter "b" (abcPatched 0)) :=
  loop_suppression (emitGoto .loopback) "b" (abcPatched 0) (onStepEnter "b" (abcPatched 0))
    rfl rfl

/-- C13 (as stated) fails on the loopback channel of the example: on steps `a, b, c`
with offset 1, the fragment `#/a` differs from `lastHash` and names a step, but the
published payload comes straight back and the callback advances by the offset, so the
active step ends as `b`, not as the parsed `a`. -/
theorem fragment_change_loopback :
    (abcAt "#/a" 1).hash
        ≠ (abcAt "#/a" 1).lastHash ∧
      stripFragment "#/a" = "a" ∧
      onHashChange (emitGoto .loopback) (abcAt "#/a" 1) =
        (.normal (),
          { abcWorld .null 1 with
            hash := "#/a"
            activeStep := .str "b"
            emitted := [⟨.str "a", .undefined⟩] }) := by
  decide

/-- C13 (amended): in a constructed adapter, when the fragment differs from `lastHash`
the fragment-change listener is the call `goto(parse(h))` with no duration, on any
channel; on a channel that does not call back, if `parse(h)` is in the step sequence
it becomes the active step and one payload with that step and an `undefined` duration
is handed to the channel, and otherwise the state is unchanged. -/
theorem fragment_change_is_goto (emit : Emit) (w : World) (hdiff : w.hash ≠ w.lastHash)
    (hb : w.fnBound = true) :
    onHashChange emit w =
        andThen (goto emit (.str (stripFragment w.hash)) .undefined w)
          (fun _ w1 => (.normal (), w1)) ∧
      onHashChange (emitGoto .fireAndForget) w =
        (.normal (),
          if stripFragment w.hash ∈ w.steps then
            { w with
              activeStep := .str (stripFragment w.hash)
              emitted := w.emitted ++ [⟨.str (stripFragment w.hash), .undefined⟩] }
          else w) := by
  have hrun : ∀ e : Emit, onHashChange e w =
      andThen (goto e (.str (stripFragment w.hash)) .undefined w)
        (fun _ w1 => (.normal (), w1)) := by
    intro e
    unfold onHashChange getElementFromHash
    rw [if_pos hdiff, if_pos hb]
  refine ⟨hrun emit, ?_⟩
  rw [hrun]
  by_cases hm : stripFragment w.hash ∈ w.steps
  · rw [if_pos hm]
    show andThen (goto fireAndForget _ _ w) _ = _
    rw [goto_of_mem w _ .undefined hm]
    rfl
  · rw [if_neg hm, goto_of_not_mem _ w _ _ (by intro s hs; cases hs; exact hm)]
    rfl

/-- C13 (amended) at a concrete state: the legacy form `#b` on steps `a, b, c`. -/
theorem fragment_change_is_goto_witness :
    onHashChange (emitGoto .loopback) (abcAt "#b" 1) =
        andThen (goto (emitGoto .loopback)
          (.str (stripFragment (abcAt "#b" 1).hash))
          .undefined (abcAt "#b" 1))
          (fun _ w1 => (.normal (), w1)) ∧
      onHashChange (emitGoto .fireAndForget) (abcAt "#b" 1) =
        (.normal (),
          if stripFragment (abcAt "#b" 1).hash
              ∈ (abcAt "#b" 1).steps then
            { (abcAt "#b" 1) with
              activeStep := .str (stripFragment (abcAt "#b" 1).hash)
              emitted := (abcAt "#b" 1).emitted
                ++ [⟨.str (stripFragment (abcAt "#b" 1).hash),
                    .undefined⟩] }
          else (abcAt "#b" 1)) :=
  fragment_change_is_goto (emitGoto .loopback) (abcAt "#b" 1)
    (by decide) (by decide)

/-- C14 (as stated) fails: `goto` has no statement that writes the fragment.  On steps
`a, b, c` with an empty fragment, `goto("b")` succeeds (with the `standalone` flag set,
and equally on a page without host library) and the fragment and `lastHash` are still
empty, not `#/b`. -/
theorem goto_writes_no_fragment :
    goto (emitGoto .fireAndForget) (.str "b") .undefined
        { abcWorld (.str "a") 0 with standalone := true } =
      (.normal (.str "b"),
        { abcWorld (.str "b") 0 with
          standalone := true
          hash := ""
          lastHash := ""
          emitted := [⟨.str "b", .undefined⟩] }) ∧
    (goto (emitGoto .loopback) (.str "b") .undefined (abcWorld (.str "a") 0)).2.hash = "" ∧
    (goto (emitGoto .loopback) (.str "b") .undefined (abcWorld (.str "a") 0)).2.lastHash = "" ∧
    "#/" ++ "b" ≠ "" := by
  decide

/-- C14 (amended): `goto`, successful or not, with any arguments, in any state and on
either channel, leaves the fragment and `lastHash` as they were; the step-enter
listener is what writes them, both to `"#/" + id` for the entered element's id. -/
theorem fragment_written_on_step_enter (ch : Channel) (w : World) (id d : JsVal)
    (e : String) :
    (goto (emitGoto ch) id d w).2.hash = w.hash ∧
      (goto (emitGoto ch) id d w).2.lastHash = w.lastHash ∧
      (onStepEnter e w).hash = "#/" ++ e ∧
      (onStepEnter e w).lastHash = "#/" ++ e :=
  ⟨(keeps_goto _ (emitKeeps_emitGoto ch) id d w).hash,
   (keeps_goto _ (emitKeeps_emitGoto ch) id d w).lastHash, rfl, rfl⟩

/-! ## The host and local navigation -/

/-- The callback in a state with a patched host: the offset loop runs to its end at
some step `v`, the cached API is fetched and its `gotoOrig` is called with `v`. -/
theorem onGoto_patched (emit : Emit) (w : World) (step dur : JsVal)
    (hu : step ≠ .undefined) (hn : step ≠ .null) (hb : w.fnBound = true)
    (hfn : w.impressIsFn = true) (hp : w.impressPatched = true) :
    ∃ v, onGoto emit (.obj step dur) w =
      (.normal (), gotoOrig v dur (impressCall none { w with activeStep := v })) := by
  obtain ⟨v, hv⟩ := advance_frame w.offset { w with activeStep := step } hb
  refine ⟨v, ?_⟩
  rw [onGoto_obj emit step dur w hu hn, hv]
  simp [andThen, hfn, hp]

/-- C15 (as stated) fails: `goto` only hands the payload to the channel.  With the
host patched, on a channel that does not deliver the event back, `goto("b", 7)`
succeeds and the host's original `goto` has not been called. -/
theorem local_goto_leaves_host_alone :
    (abcPatched 0).impressIsFn = true ∧ (abcPatched 0).impressPatched = true ∧
      goto (emitGoto .fireAndForget) (.str "b") (.num 7) (abcPatched 0) =
        (.normal (.str "b"),
          { abcPatched 0 with
            activeStep := .str "b"
            emitted := [⟨.str "a", .num 0⟩, ⟨.str "b", .num 7⟩]
            hostGotos := [] }) := by
  decide

/-- C15 (amended): with a host library present and patched, a successful local
`goto(id, d)` on a channel that does not deliver the event back leaves the host's call
log as it was; on the loopback channel of a constructed adapter the callback runs
inside the call and the host's original `goto` is called exactly once, with the active
step the call ends with (the offset-advanced one, which is also returned) and `d`. -/
theorem host_driven_by_callback (w : World) (id : String) (d : JsVal)
    (hmem : id ∈ w.steps) (hfn : w.impressIsFn = true) (hp : w.impressPatched = true)
    (hb : w.fnBound = true) (hcb : w.onGotoCb = true) :
    (goto (emitGoto .fireAndForget) (.str id) d w).2.hostGotos = w.hostGotos ∧
      ∃ r, goto (emitGoto .loopback) (.str id) d w = (.normal r.activeStep, r) ∧
        r.hostGotos = w.hostGotos ++ [(r.activeStep, d)] := by
  refine ⟨?_, ?_⟩
  · show (goto fireAndForget (.str id) d w).2.hostGotos = _
    rw [goto_of_mem w id d hmem]
  · obtain ⟨v, hv⟩ := onGoto_patched (loopbackEmit 1)
      (publish ⟨.str id, d⟩ { w with activeStep := .str id }) (.str id) d
      (by simp) (by simp) hb hfn hp
    have hi : ¬ indexOf w.steps (.str id) < 0 := by
      have := indexOfFrom_mem_nonneg id w.steps hmem 0
      unfold indexOf; omega
    have hemit : emitGoto .loopback ⟨.str id, d⟩ { w with activeStep := .str id } =
        onGoto (loopbackEmit 1) (.obj (.str id) d)
          (publish ⟨.str id, d⟩ { w with activeStep := .str id }) := by
      show (if (publish ⟨.str id, d⟩ { w with activeStep := .str id }).onGotoCb then
          onGoto (loopbackEmit 1) (.obj (.str id) d)
            (publish ⟨.str id, d⟩ { w with activeStep := .str id })
        else (.normal (), publish ⟨.str id, d⟩ { w with activeStep := .str id })) = _
      have hcb1 : (publish ⟨.str id, d⟩ { w with activeStep := .str id }).onGotoCb = true := hcb
      rw [if_pos hcb1]
    refine ⟨gotoOrig v d (impressCall none
      { publish ⟨.str id, d⟩ { w with activeStep := .str id } with activeStep := v }), ?_, ?_⟩
    · unfold goto
      simp only [if_neg hi]
      rw [hemit, hv]
      rfl
    · rw [(gotoOrig_impressCall_frame v d none _).1]
      exact (gotoOrig_impressCall_frame v d none _).2.2

/-- C15 (amended) at a concrete state: steps `a, b, c`, offset 1, host patched. -/
theorem host_driven_by_callback_witness :
    (goto (emitGoto .fireAndForget) (.str "b") (.num 7) (abcPatched 1)).2.hostGotos
        = (abcPatched 1).hostGotos ∧
      ∃ r, goto (emitGoto .loopback) (.str "b") (.num 7) (abcPatched 1)
          = (.normal r.activeStep, r) ∧
        r.hostGotos = (abcPatched 1).hostGotos ++ [(r.activeStep, .num 7)] :=
  host_driven_by_callback (abcPatched 1) "b" (.num 7)
    (by decide) (by decide) (by decide) (by decide) (by decide)

/-! ## Patching -/

/-- A constructor that returns has gone through the deferred branch of `patchImpress`:
its function variables are bound, nothing is patched, cached or published yet. -/
theorem constructed_state (emit : Emit) (slidesTree : Option (List String)) (standalone : Bool)
    (k : Nat) (page : Page) (w0 : World)
    (hc : asqImpressAdapter emit slidesTree standalone k page = (.normal (), w0)) :
    w0.fnBound = true ∧ w0.roots = [] ∧ w0.origFactoryCalls = [] ∧ w0.emitted = [] ∧
      w0.impressPatched = false ∧ w0.activeStep = .null ∧ w0.standalone = false := by
  unfold asqImpressAdapter at hc
  cases standalone <;> cases hfn : page.impressIsFn <;> cases hr : page.rootPresent <;>
    simp [patchImpress, gotoStart, getElementFromHash, andThen, hfn, hr] at hc
  subst hc
  exact ⟨rfl, rfl, rfl, rfl, rfl, rfl, rfl⟩

theorem impressCall_cached (rootId : Option String) (w : World) :
    rootKey rootId ∈ (impressCall rootId w).roots := by
  unfold impressCall
  by_cases h : rootKey rootId ∈ w.roots
  · rw [if_pos h]; exact h
  · rw [if_neg h]; exact List.mem_append_right _ (List.mem_singleton.mpr rfl)

theorem impressCalls_cached (rootId : Option String) (n : Nat) :
    ∀ w : World, rootKey rootId ∈ w.roots → impressCalls rootId n w = w := by
  induction n with
  | zero => intro w _; rfl
  | succ m ih =>
    intro w h
    have h1 : impressCall rootId w = w := by unfold impressCall; rw [if_pos h]
    show impressCalls rootId m (impressCall rootId w) = w
    rw [h1]; exact ih w h

/-- The path of C16 that does what the claim says: in every state reached by an
adapter whose constructor returned, once
`patchImpress` has patched the host: a further `patchImpress` call returns at once and
changes nothing; after a call of the patched factory for a root the root is cached,
and any number of further calls for it change nothing (the cached object is returned);
however many calls are made, the original factory has been called exactly once for
that root, and the root's API object has `gotoOrig`, `nextOrig`, `prevOrig` equal to
the host's own `goto`, `next`, `prev` while `goto`, `next`, `prev` are the adapter's. -/
theorem patching_idempotent (ch : Channel) (slidesTree : Option (List String))
    (standalone : Bool) (k : Nat) (page : Page) (evs : List Event) (w0 w : World)
    (rootId : Option String) (n : Nat)
    (hc : asqImpressAdapter (emitGoto ch) slidesTree standalone k page = (.normal (), w0))
    (hw : run (emitGoto ch) evs w0 = w) (hp : w.impressPatched = true) :
    (∀ e, patchImpress e w = (.normal (), w)) ∧
      rootKey rootId ∈ (impressCall rootId w).roots ∧
      impressCalls rootId n (impressCall rootId w) = impressCall rootId w ∧
      (impressCalls rootId (n + 1) w).origFactoryCalls.count (rootKey rootId) = 1 ∧
      apiObject (impressCalls rootId (n + 1) w) (rootKey rootId) =
        { goto := .adapterGoto, next := .adapterNext, prev := .adapterPrev
          gotoOrig := .hostGoto (rootKey rootId)
          nextOrig := .hostNext (rootKey rootId)
          prevOrig := .hostPrev (rootKey rootId) } := by
  obtain ⟨hb0, hr0, ho0, -, -, -, -⟩ := constructed_state _ _ _ _ _ _ hc
  have hst := run_stable _ (emitKeeps_emitGoto ch) evs w0
  rw [hw] at hst
  have hb : w.fnBound = true := hst.fnBound.trans hb0
  have hcache : CacheOK w := hst.cache ⟨by rw [hr0, ho0], by rw [hr0]; exact List.nodup_nil⟩
  have hk := keeps_impressCall rootId w
  have hmem := impressCall_cached rootId w
  have hcalls : impressCalls rootId (n + 1) w = impressCall rootId w :=
    impressCalls_cached rootId n _ hmem
  have hcount : (impressCall rootId w).origFactoryCalls.count (rootKey rootId) = 1 := by
    obtain ⟨h1, h2⟩ := hk.cache hcache
    rw [h1]
    exact List.count_eq_one_of_mem h2 hmem
  refine ⟨?_, hmem, impressCalls_cached rootId n _ hmem, ?_, ?_⟩
  · intro e; unfold patchImpress; rw [if_pos hp]
  · rw [hcalls]; exact hcount
  · rw [hcalls]
    unfold apiObject
    rw [hcount]
    show patchApi (impressCall rootId w) (hostApi (rootKey rootId)) = _
    unfold patchApi hostApi
    rw [hk.fnBound, hb]
    rfl

/-- The good path of C16 at a concrete run: the host is loaded, `impress:init` patches it, a script
calls `impress()`; then three more calls. -/
theorem patching_idempotent_witness :
    (∀ e, patchImpress e
        (run (emitGoto .fireAndForget) [.loadHost, .init, .factory none] (abcWorld .null 0))
      = (.normal (),
          run (emitGoto .fireAndForget) [.loadHost, .init, .factory none] (abcWorld .null 0))) ∧
      rootKey none ∈ (impressCall none
        (run (emitGoto .fireAndForget) [.loadHost, .init, .factory none]
          (abcWorld .null 0))).roots ∧
      impressCalls none 2 (impressCall none
        (run (emitGoto .fireAndForget) [.loadHost, .init, .factory none] (abcWorld .null 0)))
        = impressCall none
          (run (emitGoto .fireAndForget) [.loadHost, .init, .factory none] (abcWorld .null 0)) ∧
      (impressCalls none (2 + 1)
        (run (emitGoto .fireAndForget) [.loadHost, .init, .factory none]
          (abcWorld .null 0))).origFactoryCalls.count (rootKey none) = 1 ∧
      apiObject (impressCalls none (2 + 1)
        (run (emitGoto .fireAndForget) [.loadHost, .init, .factory none] (abcWorld .null 0)))
        (rootKey none) =
        { goto := .adapterGoto, next := .adapterNext, prev := .adapterPrev
          gotoOrig := .hostGoto (rootKey none)
          nextOrig := .hostNext (rootKey none)
          prevOrig := .hostPrev (rootKey none) } :=
  patching_idempotent .fireAndForget (some ["a", "b", "c"]) false 0 ⟨"", false, true, []⟩
    [.loadHost, .init, .factory none] (abcWorld .null 0) _ none 2 rfl rfl (by decide)

/-- A call of the patched factory for a named root that is not cached yet: the
original factory is called for that very root, and that root is cached. -/
theorem impressCall_new_root (w : World) (x : String) (hx : x ≠ "") (hnx : x ∉ w.roots) :
    impressCall (some x) w =
      { w with origFactoryCalls := w.origFactoryCalls ++ [x], roots := w.roots ++ [x] } := by
  have hk : rootKey (some x) = x := by
    show (if x = "" then "impress" else x) = x
    rw [if_neg hx]
  unfold impressCall
  rw [hk, if_neg hnx]

/-- A call of the patched factory for a named root that is cached: nothing changes,
whatever other roots are cached. -/
theorem impressCall_cached_root (w : World) (x : String) (hx : x ≠ "") (hin : x ∈ w.roots) :
    impressCall (some x) w = w := by
  have hk : rootKey (some x) = x := by
    show (if x = "" then "impress" else x) = x
    rw [if_neg hx]
  unfold impressCall
  rw [hk, if_pos hin]

/-- A call without root id, or with the empty string, is a call for the root
`"impress"`. -/
theorem impressCall_default_root (w : World) :
    impressCall none w = impressCall (some "impress") w ∧
      impressCall (some "") w = impressCall (some "impress") w :=
  ⟨rfl, rfl⟩

/-- Two roots are cached apart: calls for the roots `x` and `y`, in a state where
neither is cached, call the original factory once for each, and a second round of
calls changes nothing. -/
theorem impressCall_two_roots (w : World) (x y : String) (hx : x ≠ "") (hy : y ≠ "")
    (hxy : x ≠ y) (hnx : x ∉ w.roots) (hny : y ∉ w.roots) :
    impressCall (some y) (impressCall (some x) w) =
        { w with
          origFactoryCalls := w.origFactoryCalls ++ [x] ++ [y]
          roots := w.roots ++ [x] ++ [y] } ∧
      impressCall (some x) (impressCall (some y) (impressCall (some x) w))
        = impressCall (some y) (impressCall (some x) w) ∧
      impressCall (some y) (impressCall (some y) (impressCall (some x) w))
        = impressCall (some y) (impressCall (some x) w) := by
  have h1 := impressCall_new_root w x hx hnx
  have hny1 : y ∉ (impressCall (some x) w).roots := by
    rw [h1]
    show y ∉ w.roots ++ [x]
    intro hm
    rcases List.mem_append.mp hm with hm | hm
    · exact hny hm
    · exact hxy (List.mem_singleton.mp hm).symm
  have h2 := impressCall_new_root (impressCall (some x) w) y hy hny1
  have hxin : x ∈ (impressCall (some y) (impressCall (some x) w)).roots := by
    rw [h2]
    show x ∈ (impressCall (some x) w).roots ++ [y]
    rw [h1]
    exact List.mem_append_left _ (List.mem_append_right _ (List.mem_singleton.mpr rfl))
  have hyin : y ∈ (impressCall (some y) (impressCall (some x) w)).roots := by
    rw [h2]
    exact List.mem_append_right _ (List.mem_singleton.mpr rfl)
  refine ⟨?_, impressCall_cached_root _ x hx hxin, impressCall_cached_root _ y hy hyin⟩
  rw [h2, h1]

/-- C16: what the code does when the host library is already loaded at construction,
on steps `a, b, c`.  `patchImpress` runs inside the constructor, replaces the host
factory, sets `impressPatched`, and then throws at its start-up call (the variable
`getElementFromHash` is unbound, the defect of C8).  The variables `prev` and `next`
are never assigned, so the API object the patched factory hands out has `goto` from
the adapter and the host's originals saved, but `next` and `prev` are `undefined`,
not the adapter's. -/
theorem factory_after_aborted_constructor :
    (asqImpressAdapter fireAndForget (some ["a", "b", "c"]) false 0
        ⟨"", true, true, []⟩).1 = .throw (.notAFunction "getElementFromHash") ∧
      (asqImpressAdapter fireAndForget (some ["a", "b", "c"]) false 0
        ⟨"", true, true, []⟩).2.impressPatched = true ∧
      apiObject (impressCall none (asqImpressAdapter fireAndForget (some ["a", "b", "c"])
        false 0 ⟨"", true, true, []⟩).2) "impress" =
        { goto := .adapterGoto, next := .undefined, prev := .undefined
          gotoOrig := .hostGoto "impress"
          nextOrig := .hostNext "impress"
          prevOrig := .hostPrev "impress" } := by
  decide

/-! ## Remote navigation is not validated -/

/-- C17: what the code does while the host library is loaded but not patched yet: on
steps `a, b, c` with offset 0 and an empty fragment, the payload with step `z` (not in
the sequence) makes the callback run `patchImpress`, whose start-up `goto` falls back
to the first step: the active step ends as `a`, not `z`. -/
theorem remote_non_member_unpatched :
    isStep (loadImpress (abcWorld .null 0)).steps (.str "z") = false ∧
      (loadImpress (abcWorld .null 0)).offset = 0 ∧
      (onGoto (emitGoto .fireAndForget) (.obj (.str "z") .undefined)
        (loadImpress (abcWorld .null 0))).2.activeStep = .str "a" ∧
      JsVal.str "a" ≠ JsVal.str "z" := by
  decide

/-- The sibling path of C17, which does what the claim says: with offset 0, while the
host library is absent or already patched,
the callback handed a payload whose step `a` is neither `null` nor `undefined` and is
not in the step sequence returns normally with `a` as the active step: there is no
membership check, the active step is now outside the sequence, and nothing is handed
to the channel. -/
theorem remote_sets_any_step (emit : Emit) (w : World) (a dur : JsVal)
    (hu : a ≠ .undefined) (hn : a ≠ .null) (hoff : w.offset = 0) (hs : Settled w)
    (hout : isStep w.steps a = false) :
    ∃ r, onGoto emit (.obj a dur) w = (.normal (), r) ∧
      r.activeStep = a ∧ r.steps = w.steps ∧ isStep r.steps r.activeStep = false ∧
      r.emitted = w.emitted := by
  have hadv : advance w.offset { w with activeStep := a }
      = (.normal (), { w with activeStep := a }) := by rw [hoff]; rfl
  rw [onGoto_obj emit a dur w hu hn, hadv]
  cases hfn : w.impressIsFn with
  | false =>
    refine ⟨{ w with activeStep := a }, ?_, rfl, rfl, hout, rfl⟩
    simp [andThen, hfn]
  | true =>
    have hp : w.impressPatched = true := by
      rcases hs with h | h
      · rw [hfn] at h; cases h
      · exact h
    have hk : Keeps { w with activeStep := a }
        (gotoOrig a dur (impressCall none { w with activeStep := a })) :=
      (keeps_impressCall none _).andKeeps (keeps_gotoOrig _ _ _)
    have hact := (gotoOrig_impressCall_frame a dur none { w with activeStep := a }).1
    refine ⟨gotoOrig a dur (impressCall none { w with activeStep := a }), ?_, hact, hk.steps,
      ?_, (gotoOrig_impressCall_frame a dur none { w with activeStep := a }).2.1⟩
    · simp [andThen, hfn, hp]
    · rw [hact, hk.steps]; exact hout

/-- The sibling path of C17 at a concrete state: steps `a, b, c`, no host, payload with step `z`. -/
theorem remote_sets_any_step_witness :
    ∃ r, onGoto (emitGoto .loopback) (.obj (.str "z") .undefined) (abcWorld (.str "b") 0)
        = (.normal (), r) ∧
      r.activeStep = .str "z" ∧ r.steps = (abcWorld (.str "b") 0).steps ∧
      isStep r.steps r.activeStep = false ∧
      r.emitted = (abcWorld (.str "b") 0).emitted :=
  remote_sets_any_step (emitGoto .loopback) (abcWorld (.str "b") 0) (.str "z") .undefined
    (by decide) (by decide) rfl (Or.inl rfl) (by decide)

/-! ## `goto` on the active step -/

/-- C19 (as stated) fails on the loopback channel of the example: on steps `a, b, c`
with offset 1 and `a` active, `goto("a")` publishes `a`, the payload comes straight
back, the callback advances by the offset, and the call returns `b` with `b` active. -/
theorem goto_active_loopback :
    (abcWorld (.str "a") 1).activeStep = .str "a" ∧
      goto (emitGoto .loopback) (.str "a") .undefined (abcWorld (.str "a") 1) =
        (.normal (.str "b"),
          { abcWorld (.str "a") 1 with
            activeStep := .str "b"
            emitted := [⟨.str "a", .undefined⟩] }) := by
  decide

/-- C19 (amended): on a channel that does not call back, when `s` is in the step
sequence and already active, `goto(s)` returns `s` and leaves every variable of the
adapter as it was (active step, `lastHash`, step sequence, offset and the rest); the
only change is the payload handed to the channel. -/
theorem goto_active_step (w : World) (s : String) (d : JsVal) (hmem : s ∈ w.steps)
    (hact : w.activeStep = .str s) :
    goto (emitGoto .fireAndForget) (.str s) d w =
      (.normal (.str s), { w with emitted := w.emitted ++ [⟨.str s, d⟩] }) := by
  show goto fireAndForget (.str s) d w = _
  rw [goto_of_mem w s d hmem, ← hact]

/-- C19 (amended) at a concrete state: `goto("b")` with `b` active. -/
theorem goto_active_step_witness :
    goto (emitGoto .fireAndForget) (.str "b") .undefined (abcWorld (.str "b") 2) =
      (.normal (.str "b"),
        { abcWorld (.str "b") 2 with
          emitted := (abcWorld (.str "b") 2).emitted ++ [⟨.str "b", .undefined⟩] }) :=
  goto_active_step (abcWorld (.str "b") 2) "b" .undefined (by decide) rfl

/-! ## Parsing and writing the fragment -/

theorem stripFragment_written (id : String) : stripFragment ("#/" ++ id) = id := by
  have h : ("#/" ++ id).data = '#' :: '/' :: id.data := by
    rw [String.data_append]; rfl
  unfold stripFragment
  rw [h]
  simp

theorem stripFragment_legacy (id : String) (hid : id.data.head? ≠ some '/') :
    stripFragment ("#" ++ id) = id := by
  have h : ("#" ++ id).data = '#' :: id.data := by
    rw [String.data_append]; rfl
  unfold stripFragment
  rw [h]
  cases hd : id.data with
  | nil =>
    simp
    cases id
    simp at hd
    simp [hd]
  | cons c rest =>
    have hc : c ≠ '/' := by
      intro hc
      apply hid
      rw [hd, hc]; rfl
    split
    · rename_i heq
      simp at heq
      exact absurd heq.1 hc
    · rename_i heq
      simp at heq
      rw [← heq, ← hd]
    · rename_i h1 h2
      exact absurd rfl (h2 (c :: rest))

theorem stripFragment_other (h : String) (hh : h.data.head? ≠ some '#') :
    stripFragment h = h := by
  unfold stripFragment
  split
  · rename_i heq; rw [heq] at hh; exact absurd rfl hh
  · rename_i heq; rw [heq] at hh; exact absurd rfl hh
  · rfl

/-- What an event other than a change of the fragment by the browser does to the
fragment: nothing, or the write of the step-enter listener. -/
theorem step_hash (e : Emit) (he : EmitKeeps e) (ev : Event) (w : World)
    (hev : ∀ f, ev ≠ .fragment f) :
    (step e ev w).hash = w.hash ∨ ∃ id, (step e ev w).hash = "#/" ++ id := by
  cases ev with
  | goto id d => exact Or.inl (keeps_goto e he id d w).hash
  | next => exact Or.inl (keeps_next e he w).hash
  | prev => exact Or.inl (keeps_prev e he w).hash
  | fragment f => exact absurd rfl (hev f)
  | remote d =>
    show (if w.onGotoCb then (onGoto e d w).2 else w).hash = _ ∨ _
    by_cases hl : w.onGotoCb = true
    · rw [if_pos hl]; exact Or.inl (keeps_onGoto e he d w).hash
    · rw [if_neg hl]; exact Or.inl rfl
  | stepEnter id =>
    show (if w.stepEnterListener then onStepEnter id w else w).hash = _ ∨
      ∃ x, (if w.stepEnterListener then onStepEnter id w else w).hash = "#/" ++ x
    by_cases hl : w.stepEnterListener = true
    · rw [if_pos hl]; exact Or.inr ⟨id, rfl⟩
    · rw [if_neg hl]; exact Or.inl rfl
  | loadHost => exact Or.inl rfl
  | init => exact Or.inl (keeps_onImpressInit e he w).hash
  | factory r =>
    show (if w.impressPatched then impressCall r w else w).hash = _ ∨ _
    by_cases hl : w.impressPatched = true
    · rw [if_pos hl]; exact Or.inl (keeps_impressCall r w).hash
    · rw [if_neg hl]; exact Or.inl rfl

/-- C18: in a constructed adapter `getElementFromHash` returns `id` for the written
form `"#/" + id`, for every `id` (so only one `/` is dropped, also from an id that
begins with `/` or `//`); it returns `legacy` for the legacy form `"#" + legacy` when
`legacy` does not begin with `/`, and returns a fragment that does not begin with `#`
unchanged; and on either channel an event other than the browser's own change of the
fragment leaves the fragment alone or writes the form `"#/" + id`. -/
theorem fragment_round_trip (ch : Channel) (w : World) (id legacy h : String) (ev : Event)
    (hb : w.fnBound = true) (hleg : legacy.data.head? ≠ some '/')
    (hh : h.data.head? ≠ some '#') (hev : ∀ f, ev ≠ .fragment f) :
    getElementFromHash { w with hash := "#/" ++ id } = .normal id ∧
      getElementFromHash { w with hash := "#" ++ legacy } = .normal legacy ∧
      getElementFromHash { w with hash := h } = .normal h ∧
      ((step (emitGoto ch) ev w).hash = w.hash ∨
        ∃ e, (step (emitGoto ch) ev w).hash = "#/" ++ e) := by
  have hget : ∀ f : String, getElementFromHash { w with hash := f }
      = .normal (stripFragment f) := by
    intro f
    unfold getElementFromHash
    rw [if_pos hb]
  refine ⟨?_, ?_, ?_, step_hash _ (emitKeeps_emitGoto ch) ev w hev⟩
  · rw [hget, stripFragment_written]
  · rw [hget, stripFragment_legacy legacy hleg]
  · rw [hget, stripFragment_other h hh]

/-- C18 at a concrete state: the id `//b` in the written form, the id `b` in the
legacy form, the fragment `b#`, a step-enter event. -/
theorem fragment_round_trip_witness :
    getElementFromHash { abcPatched 0 with hash := "#/" ++ "//b" } = .normal "//b" ∧
      getElementFromHash { abcPatched 0 with hash := "#" ++ "b" } = .normal "b" ∧
      getElementFromHash { abcPatched 0 with hash := "b#" } = .normal "b#" ∧
      ((step (emitGoto .loopback) (.stepEnter "c") (abcPatched 0)).hash = (abcPatched 0).hash ∨
        ∃ e, (step (emitGoto .loopback) (.stepEnter "c") (abcPatched 0)).hash = "#/" ++ e) :=
  fragment_round_trip .loopback (abcPatched 0) "//b" "b" "b#" (.stepEnter "c")
    (by decide) (by decide) (by decide) (by intro f hf; cases hf)

/-! ## Building the step sequence -/

theorem assignIds_length (ids : List String) : ∀ k, (assignIds k ids).length = ids.length := by
  induction ids with
  | nil => intro k; rfl
  | cons a rest ih => intro k; simp [assignIds, ih]

theorem assignIds_getElem? (ids : List String) : ∀ k i,
    (assignIds k ids)[i]? =
      ids[i]?.map (fun id => if id = "" then "step-" ++ toString (k + i + 1) else id) := by
  induction ids with
  | nil => intro k i; simp [assignIds]
  | cons a rest ih =>
    intro k i
    cases i with
    | zero => simp [assignIds]
    | succ j =>
      simp only [assignIds, List.getElem?_cons_succ]
      rw [ih (k + 1) j]
      have : k + 1 + j + 1 = k + (j + 1) + 1 := by omega
      rw [this]

/-- The step sequence and the ids of the step elements are fixed by the first
statements of the constructor, however it ends. -/
theorem constructor_steps (emit : Emit) (slidesTree : Option (List String))
    (standalone : Bool) (k : Nat) (page : Page) :
    (asqImpressAdapter emit slidesTree standalone k page).2.steps =
        (match slidesTree with
          | some l => l
          | none => assignIds 0 page.stepElementIds) ∧
      (asqImpressAdapter emit slidesTree standalone k page).2.stepElementIds =
        (match slidesTree with
          | some _ => page.stepElementIds
          | none => assignIds 0 page.stepElementIds) := by
  unfold asqImpressAdapter
  cases standalone <;> cases hfn : page.impressIsFn <;> cases hr : page.rootPresent <;>
    cases slidesTree <;>
    simp [patchImpress, gotoStart, getElementFromHash, andThen, hfn, hr]

/-- C20: with an explicit list the step sequence is that list and the step elements
keep their ids; without one the step sequence has one entry per step element, in
document order, the `i`-th being the element's id when it has one and `"step-"`
followed by the decimal of `i + 1` otherwise, and the elements carry those ids
afterwards.  This holds for every channel, mode, offset and page. -/
theorem step_sequence_construction (emit : Emit) (standalone : Bool) (k : Nat) (page : Page)
    (l : List String) (i : Nat) :
    (asqImpressAdapter emit (some l) standalone k page).2.steps = l ∧
      (asqImpressAdapter emit (some l) standalone k page).2.stepElementIds
        = page.stepElementIds ∧
      (asqImpressAdapter emit none standalone k page).2.steps.length
        = page.stepElementIds.length ∧
      (asqImpressAdapter emit none standalone k page).2.steps[i]? =
        page.stepElementIds[i]?.map
          (fun id => if id = "" then "step-" ++ toString (i + 1) else id) ∧
      (asqImpressAdapter emit none standalone k page).2.stepElementIds
        = (asqImpressAdapter emit none standalone k page).2.steps := by
  obtain ⟨h1, h2⟩ := constructor_steps emit (some l) standalone k page
  obtain ⟨h3, h4⟩ := constructor_steps emit none standalone k page
  refine ⟨h1, h2, ?_, ?_, ?_⟩
  · rw [h3]; exact assignIds_length _ 0
  · rw [h3, assignIds_getElem? _ 0 i, Nat.zero_add]
  · rw [h3, h4]

/-- An example of the generated ids: twelve step elements, the first, the third and
the last without an id. -/
theorem assignIds_example :
    assignIds 0 ["", "intro", "", "d", "e", "f", "g", "h", "i", "j", "k", ""] =
      ["step-1", "intro", "step-3", "d", "e", "f", "g", "h", "i", "j", "k", "step-12"] := by
  decide

/-! ## Going round the sequence -/

/-- What `next` does from the step at index `i`, on a channel that does not call back. -/
theorem next_of_index (w : World) (i : Nat) (a : String) (hnd : w.steps.Nodup)
    (hi : w.steps[i]? = some a) (hact : w.activeStep = .str a) :
    ∃ b, w.steps[(i + 1) % w.steps.length]? = some b ∧
      next fireAndForget w =
        (.normal (.str b),
          { w with activeStep := .str b, emitted := w.emitted ++ [⟨.str b, .undefined⟩] }) := by
  obtain ⟨hlt, -⟩ := List.getElem?_eq_some.mp hi
  have hpos : (i + 1) % w.steps.length < w.steps.length := Nat.mod_lt _ (by omega)
  refine ⟨w.steps[(i + 1) % w.steps.length], List.getElem?_eq_getElem hpos, ?_⟩
  have htarget : (if indexOf w.steps w.activeStep + 1 < (w.steps.length : Int)
      then stepAt w.steps (indexOf w.steps w.activeStep + 1) else stepAt w.steps 0)
      = .str w.steps[(i + 1) % w.steps.length] := by
    rw [hact]
    exact nextTarget_of_index w.steps hnd i a hi hpos
  show goto fireAndForget _ .undefined w = _
  rw [htarget]
  exact goto_of_mem w _ .undefined (List.getElem_mem _)

/-- The id computed by `prev` from an active step at index `i`. -/
theorem prevTarget_of_index (l : List String) (hnd : l.Nodup) (i : Nat) (a : String)
    (hi : l[i]? = some a) (hpos : (i + l.length - 1) % l.length < l.length) :
    (if indexOf l (.str a) - 1 ≥ 0
      then stepAt l (indexOf l (.str a) - 1) else stepAt l ((l.length : Int) - 1))
      = .str l[(i + l.length - 1) % l.length] := by
  obtain ⟨hlt, -⟩ := List.getElem?_eq_some.mp hi
  have hb : l[(i + l.length - 1) % l.length]? = some l[(i + l.length - 1) % l.length] :=
    List.getElem?_eq_getElem hpos
  rw [indexOf_getElem? l hnd i a hi]
  by_cases hfirst : 1 ≤ i
  · rw [if_pos (by omega)]
    have h1 : ((i : Int) - 1) = ((i - 1 : Nat) : Int) := by omega
    have hm : (i + l.length - 1) % l.length = i - 1 := by
      have : i + l.length - 1 = (i - 1) + l.length := by omega
      rw [this, Nat.add_mod_right, Nat.mod_eq_of_lt (by omega)]
    rw [h1]
    apply stepAt_getElem?
    rw [← hb, hm]
  · rw [if_neg (by omega)]
    have h1 : ((l.length : Int) - 1) = ((l.length - 1 : Nat) : Int) := by omega
    have hm : (i + l.length - 1) % l.length = l.length - 1 := by
      have : i + l.length - 1 = l.length - 1 := by omega
      rw [this, Nat.mod_eq_of_lt (by omega)]
    rw [h1]
    apply stepAt_getElem?
    rw [← hb, hm]

/-- What `prev` does from the step at index `i`, on a channel that does not call back. -/
theorem prev_of_index (w : World) (i : Nat) (a : String) (hnd : w.steps.Nodup)
    (hi : w.steps[i]? = some a) (hact : w.activeStep = .str a) :
    ∃ b, w.steps[(i + w.steps.length - 1) % w.steps.length]? = some b ∧
      prev fireAndForget w =
        (.normal (.str b),
          { w with activeStep := .str b, emitted := w.emitted ++ [⟨.str b, .undefined⟩] }) := by
  obtain ⟨hlt, -⟩ := List.getElem?_eq_some.mp hi
  have hpos : (i + w.steps.length - 1) % w.steps.length < w.steps.length :=
    Nat.mod_lt _ (by omega)
  refine ⟨w.steps[(i + w.steps.length - 1) % w.steps.length],
    List.getElem?_eq_getElem hpos, ?_⟩
  have htarget : (if indexOf w.steps w.activeStep - 1 ≥ 0
      then stepAt w.steps (indexOf w.steps w.activeStep - 1)
      else stepAt w.steps ((w.steps.length : Int) - 1))
      = .str w.steps[(i + w.steps.length - 1) % w.steps.length] := by
    rw [hact]
    exact prevTarget_of_index w.steps hnd i a hi hpos
  show goto fireAndForget _ .undefined w = _
  rw [htarget]
  exact goto_of_mem w _ .undefined (List.getElem_mem _)

/-- After `k` calls of `next` from the step at index `i` the step at index
`(i + k) mod |S|` is active. -/
theorem run_next_index (k : Nat) : ∀ (w : World) (i : Nat) (a : String),
    w.steps.Nodup → w.steps[i]? = some a → w.activeStep = .str a →
    ∃ b, w.steps[(i + k) % w.steps.length]? = some b ∧
      (run fireAndForget (List.replicate k .next) w).activeStep = .str b := by
  induction k with
  | zero =>
    intro w i a _ hi hact
    obtain ⟨hlt, -⟩ := List.getElem?_eq_some.mp hi
    exact ⟨a, by rw [Nat.add_zero, Nat.mod_eq_of_lt hlt]; exact hi, hact⟩
  | succ t ih =>
    intro w i a hnd hi hact
    obtain ⟨b, hb1, hb2⟩ := next_of_index w i a hnd hi hact
    have hstep : step fireAndForget .next w =
        { w with activeStep := .str b, emitted := w.emitted ++ [⟨.str b, .undefined⟩] } := by
      show (next fireAndForget w).2 = _
      rw [hb2]
    obtain ⟨c, hc1, hc2⟩ := ih
      { w with activeStep := .str b, emitted := w.emitted ++ [⟨.str b, .undefined⟩] }
      ((i + 1) % w.steps.length) b hnd hb1 rfl
    refine ⟨c, ?_, ?_⟩
    · have : (i + (t + 1)) % w.steps.length = ((i + 1) % w.steps.length + t) % w.steps.length := by
        rw [Nat.mod_add_mod]; congr 1; omega
      rw [this]; exact hc1
    · show (run fireAndForget (List.replicate t .next) (step fireAndForget .next w)).activeStep = _
      rw [hstep]; exact hc2

/-- Index arithmetic of a round trip: one forward, one back. -/
theorem mod_succ_pred (n i : Nat) (h : i < n) : ((i + 1) % n + n - 1) % n = i := by
  by_cases hlast : i + 1 < n
  · rw [Nat.mod_eq_of_lt hlast]
    have h1 : i + 1 + n - 1 = i + n := by omega
    rw [h1, Nat.add_mod_right]
    exact Nat.mod_eq_of_lt h
  · have h1 : i + 1 = n := by omega
    rw [h1, Nat.mod_self, Nat.zero_add]
    have h2 : n - 1 < n := by omega
    rw [Nat.mod_eq_of_lt h2]
    omega

/-- Index arithmetic of a round trip: one back, one forward. -/
theorem mod_pred_succ (n i : Nat) (h : i < n) : ((i + n - 1) % n + 1) % n = i := by
  by_cases hfirst : 1 ≤ i
  · have h1 : i + n - 1 = (i - 1) + n := by omega
    have h2 : i - 1 < n := by omega
    rw [h1, Nat.add_mod_right, Nat.mod_eq_of_lt h2]
    have h3 : i - 1 + 1 = i := by omega
    rw [h3]
    exact Nat.mod_eq_of_lt h
  · have h0 : i = 0 := by omega
    subst h0
    have h2 : n - 1 < n := by omega
    rw [Nat.zero_add, Nat.mod_eq_of_lt h2]
    have h3 : n - 1 + 1 = n := by omega
    rw [h3, Nat.mod_self]

/-- C22: on a channel that does not call back, with pairwise-distinct steps and a
step of the sequence active, `next()` followed by `prev()` returns the original step
and leaves it active, so does `prev()` followed by `next()`, and after exactly `|S|`
calls of `next()` the original step is active again. -/
theorem next_prev_inverse (w : World) (i : Nat) (a : String) (hnd : w.steps.Nodup)
    (hi : w.steps[i]? = some a) (hact : w.activeStep = .str a) :
    prev (emitGoto .fireAndForget) (next (emitGoto .fireAndForget) w).2 =
        (.normal w.activeStep,
          { (next (emitGoto .fireAndForget) w).2 with
            activeStep := w.activeStep
            emitted := (next (emitGoto .fireAndForget) w).2.emitted
              ++ [⟨w.activeStep, .undefined⟩] }) ∧
      next (emitGoto .fireAndForget) (prev (emitGoto .fireAndForget) w).2 =
        (.normal w.activeStep,
          { (prev (emitGoto .fireAndForget) w).2 with
            activeStep := w.activeStep
            emitted := (prev (emitGoto .fireAndForget) w).2.emitted
              ++ [⟨w.activeStep, .undefined⟩] }) ∧
      (run (emitGoto .fireAndForget) (List.replicate w.steps.length .next) w).activeStep
        = w.activeStep := by
  obtain ⟨hlt, -⟩ := List.getElem?_eq_some.mp hi
  refine ⟨?_, ?_, ?_⟩
  · obtain ⟨b, hb1, hb2⟩ := next_of_index w i a hnd hi hact
    have hb3 : next (emitGoto .fireAndForget) w = _ := hb2
    rw [hb3]
    show prev fireAndForget _ = _
    obtain ⟨c, hc1, hc2⟩ := prev_of_index
      { w with activeStep := .str b, emitted := w.emitted ++ [⟨.str b, .undefined⟩] }
      ((i + 1) % w.steps.length) b hnd hb1 rfl
    have hidx := mod_succ_pred w.steps.length i hlt
    have hca : c = a := by
      have h2 : w.steps[((i + 1) % w.steps.length + w.steps.length - 1) % w.steps.length]?
          = some c := hc1
      rw [hidx, hi] at h2
      exact (Option.some.inj h2).symm
    rw [hc2, hca, hact]
  · obtain ⟨b, hb1, hb2⟩ := prev_of_index w i a hnd hi hact
    have hb3 : prev (emitGoto .fireAndForget) w = _ := hb2
    rw [hb3]
    show next fireAndForget _ = _
    obtain ⟨c, hc1, hc2⟩ := next_of_index
      { w with activeStep := .str b, emitted := w.emitted ++ [⟨.str b, .undefined⟩] }
      ((i + w.steps.length - 1) % w.steps.length) b hnd hb1 rfl
    have hidx := mod_pred_succ w.steps.length i hlt
    have hca : c = a := by
      have h2 : w.steps[((i + w.steps.length - 1) % w.steps.length + 1) % w.steps.length]?
          = some c := hc1
      rw [hidx, hi] at h2
      exact (Option.some.inj h2).symm
    rw [hc2, hca, hact]
  · obtain ⟨b, hb1, hb2⟩ := run_next_index w.steps.length w i a hnd hi hact
    have hidx : (i + w.steps.length) % w.steps.length = i := by
      rw [Nat.add_mod_right, Nat.mod_eq_of_lt hlt]
    rw [hidx, hi] at hb1
    show (run fireAndForget _ w).activeStep = _
    rw [hb2, hact, (Option.some.inj hb1)]

/-- C22 at a concrete state: steps `a, b, c` with `c` active. -/
theorem next_prev_inverse_witness :
    prev (emitGoto .fireAndForget) (next (emitGoto .fireAndForget) (abcWorld (.str "c") 0)).2 =
        (.normal (abcWorld (.str "c") 0).activeStep,
          { (next (emitGoto .fireAndForget) (abcWorld (.str "c") 0)).2 with
            activeStep := (abcWorld (.str "c") 0).activeStep
            emitted := (next (emitGoto .fireAndForget) (abcWorld (.str "c") 0)).2.emitted
              ++ [⟨(abcWorld (.str "c") 0).activeStep, .undefined⟩] }) ∧
      next (emitGoto .fireAndForget) (prev (emitGoto .fireAndForget) (abcWorld (.str "c") 0)).2 =
        (.normal (abcWorld (.str "c") 0).activeStep,
          { (prev (emitGoto .fireAndForget) (abcWorld (.str "c") 0)).2 with
            activeStep := (abcWorld (.str "c") 0).activeStep
            emitted := (prev (emitGoto .fireAndForget) (abcWorld (.str "c") 0)).2.emitted
              ++ [⟨(abcWorld (.str "c") 0).activeStep, .undefined⟩] }) ∧
      (run (emitGoto .fireAndForget)
        (List.replicate (abcWorld (.str "c") 0).steps.length .next)
        (abcWorld (.str "c") 0)).activeStep = (abcWorld (.str "c") 0).activeStep :=
  next_prev_inverse (abcWorld (.str "c") 0) 2 "c" (by decide) (by decide) (by decide)

/-! ## The empty sequence -/

/-- C21: with an empty step sequence `goto(x)` for every `x` and every duration,
`next()` and `prev()` return `null` normally, on any channel, and leave the whole state
as it was: the active step is untouched and nothing is handed to the channel. -/
theorem empty_sequence_navigation (emit : Emit) (w : World) (x d : JsVal)
    (he : w.steps = []) :
    goto emit x d w = (.normal .null, w) ∧
      next emit w = (.normal .null, w) ∧
      prev emit w = (.normal .null, w) := by
  have hno : ∀ v : JsVal, ∀ s, v = .str s → s ∉ w.steps := by
    intro v s _; rw [he]; exact List.not_mem_nil s
  exact ⟨goto_of_not_mem emit w x d (hno x),
    goto_of_not_mem emit w _ .undefined (hno _),
    goto_of_not_mem emit w _ .undefined (hno _)⟩

/-- C21 at a concrete state: no steps, nothing active, the loopback channel. -/
theorem empty_sequence_navigation_witness :
    goto (emitGoto .loopback) (.str "a") (.num 0) { abcWorld .null 1 with steps := [] }
        = (.normal .null, { abcWorld .null 1 with steps := [] }) ∧
      next (emitGoto .loopback) { abcWorld .null 1 with steps := [] }
        = (.normal .null, { abcWorld .null 1 with steps := [] }) ∧
      prev (emitGoto .loopback) { abcWorld .null 1 with steps := [] }
        = (.normal .null, { abcWorld .null 1 with steps := [] }) :=
  empty_sequence_navigation (emitGoto .loopback) { abcWorld .null 1 with steps := [] }
    (.str "a") (.num 0) rfl

/-! ## The active step under local events -/

/-- On a channel that does not call back `goto` either returns `null` and changes
nothing, or returns its argument, a step of the sequence, which is then active. -/
theorem goto_fireAndForget_cases (id d : JsVal) (w : World) :
    goto fireAndForget id d w = (.normal .null, w) ∨
      ∃ s, s ∈ w.steps ∧ goto fireAndForget id d w =
        (.normal (.str s),
          { w with activeStep := .str s, emitted := w.emitted ++ [⟨.str s, d⟩] }) := by
  cases id with
  | str s =>
    by_cases hm : s ∈ w.steps
    · exact Or.inr ⟨s, hm, goto_of_mem w s d hm⟩
    · exact Or.inl (goto_of_not_mem _ w _ d (by intro t ht; cases ht; exact hm))
  | _ => exact Or.inl rfl

theorem goto_result_member (id d : JsVal) (w : World) :
    (goto fireAndForget id d w).1 = .normal .null ∨
      isStep (goto fireAndForget id d w).2.steps (goto fireAndForget id d w).2.activeStep
        = true := by
  rcases goto_fireAndForget_cases id d w with h | ⟨s, hs, h⟩
  · rw [h]; exact Or.inl rfl
  · rw [h]; exact Or.inr (by simpa [isStep] using hs)

theorem activeOK_goto (id d : JsVal) (w : World) (h : ActiveOK w) :
    ActiveOK (goto fireAndForget id d w).2 := by
  rcases goto_fireAndForget_cases id d w with hg | ⟨s, hs, hg⟩
  · rw [hg]; exact h
  · rw [hg]; exact Or.inr (by simpa [isStep] using hs)

theorem activeOK_patchImpress (w : World) (h : ActiveOK w) :
    ActiveOK (patchImpress fireAndForget w).2 := by
  by_cases hp : w.impressPatched = true
  · unfold patchImpress; rw [if_pos hp]; exact h
  by_cases hfn : w.impressIsFn = true
  · by_cases hr : w.rootPresent = true
    · rw [patchImpress_patching _ w (by simpa using hp) hfn hr]
      have h1 : ActiveOK { w with initListener := false, impressPatched := true } := h
      have h2 : ActiveOK (gotoStart fireAndForget
          { w with initListener := false, impressPatched := true }).2 := by
        unfold gotoStart getElementFromHash
        by_cases hb : w.fnBound = true
        · simp only [if_pos hb]; exact activeOK_goto _ _ _ h1
        · simp only [if_neg hb]; exact h1
      rcases hg : gotoStart fireAndForget
        { w with initListener := false, impressPatched := true } with ⟨c, w2⟩
      rw [hg] at h2
      cases c <;> exact h2
    · unfold patchImpress
      rw [if_neg hp, if_neg (by simp [hfn]), if_pos (by simp [hr])]
      exact h
  · unfold patchImpress
    rw [if_neg hp, if_pos (by simp [hfn])]
    by_cases hr : w.rootPresent = true
    · rw [if_pos hr]; exact h
    · rw [if_neg hr]; exact h

theorem activeOK_onHashChange (w : World) (h : ActiveOK w) :
    ActiveOK (onHashChange fireAndForget w).2 := by
  unfold onHashChange getElementFromHash
  by_cases hh : w.hash ≠ w.lastHash
  · rw [if_pos hh]
    by_cases hb : w.fnBound = true
    · simp only [if_pos hb]
      have h2 := activeOK_goto (.str (stripFragment w.hash)) .undefined w h
      rcases hg : goto fireAndForget (.str (stripFragment w.hash)) .undefined w with ⟨c, w2⟩
      rw [hg] at h2
      cases c <;> exact h2
    · simp only [if_neg hb]; exact h
  · rw [if_neg hh]; exact h

/-- Every event but the arrival of a remote payload keeps the active step unset or in
the sequence, on a channel that does not call back. -/
theorem activeOK_step (ev : Event) (w : World) (hev : ∀ data, ev ≠ .remote data)
    (h : ActiveOK w) : ActiveOK (step fireAndForget ev w) := by
  cases ev with
  | goto id d => exact activeOK_goto id d w h
  | next => exact activeOK_goto _ _ w h
  | prev => exact activeOK_goto _ _ w h
  | fragment f =>
    have h1 : ActiveOK { w with hash := f } := h
    show ActiveOK (if w.hashListener then (onHashChange fireAndForget { w with hash := f }).2
      else { w with hash := f })
    by_cases hl : w.hashListener = true
    · rw [if_pos hl]; exact activeOK_onHashChange _ h1
    · rw [if_neg hl]; exact h1
  | remote data => exact absurd rfl (hev data)
  | stepEnter id =>
    show ActiveOK (if w.stepEnterListener then onStepEnter id w else w)
    by_cases hl : w.stepEnterListener = true
    · rw [if_pos hl]; exact h
    · rw [if_neg hl]; exact h
  | loadHost => exact h
  | init =>
    show ActiveOK (if w.initListener then patchImpress fireAndForget w else (.normal (), w)).2
    by_cases hl : w.initListener = true
    · rw [if_pos hl]; exact activeOK_patchImpress w h
    · rw [if_neg hl]; exact h
  | factory r =>
    show ActiveOK (if w.impressPatched then impressCall r w else w)
    by_cases hl : w.impressPatched = true
    · rw [if_pos hl]
      unfold impressCall
      by_cases hc : rootKey r ∈ w.roots
      · rw [if_pos hc]; exact h
      · rw [if_neg hc]; exact h
    · rw [if_neg hl]; exact h

theorem activeOK_run (evs : List Event) : ∀ w : World,
    (∀ data, Event.remote data ∉ evs) → ActiveOK w → ActiveOK (run fireAndForget evs w) := by
  induction evs with
  | nil => intro w _ h; exact h
  | cons ev rest ih =>
    intro w hloc h
    apply ih
    · intro data hm; exact hloc data (List.mem_cons_of_mem _ hm)
    · apply activeOK_step ev w _ h
      intro data he
      exact hloc data (by rw [he]; exact List.mem_cons_self _ _)

/-- C23: on a channel that does not call back, starting with no active step, after any
sequence of events without remote payloads (local `goto` with any arguments, `next`,
`prev`, fragment changes, and the host's own events) the active step is unset or a
step of the sequence; and a further `goto`, `next` or `prev` either returns `null` or
leaves a step of the sequence active. -/
theorem local_membership_invariant (evs : List Event) (w w' : World) (id d : JsVal)
    (hloc : ∀ data, Event.remote data ∉ evs) (h0 : w.activeStep = .null)
    (hw : run (emitGoto .fireAndForget) evs w = w') :
    (w'.activeStep = .null ∨ isStep w'.steps w'.activeStep = true) ∧
      ((goto (emitGoto .fireAndForget) id d w').1 = .normal .null ∨
        isStep (goto (emitGoto .fireAndForget) id d w').2.steps
          (goto (emitGoto .fireAndForget) id d w').2.activeStep = true) ∧
      ((next (emitGoto .fireAndForget) w').1 = .normal .null ∨
        isStep (next (emitGoto .fireAndForget) w').2.steps
          (next (emitGoto .fireAndForget) w').2.activeStep = true) ∧
      ((prev (emitGoto .fireAndForget) w').1 = .normal .null ∨
        isStep (prev (emitGoto .fireAndForget) w').2.steps
          (prev (emitGoto .fireAndForget) w').2.activeStep = true) := by
  refine ⟨?_, goto_result_member id d w', goto_result_member _ _ w',
    goto_result_member _ _ w'⟩
  rw [← hw]
  exact activeOK_run evs w hloc (Or.inl h0)

/-- C23 at a concrete run: a rejected `goto`, `prev` from the unset state, a fragment
change to a step, one to no step, then the host arrives and starts. -/
theorem local_membership_invariant_witness :
    ((run (emitGoto .fireAndForget) localEvents
        (abcWorld .null 0)).activeStep = .null ∨
      isStep (run (emitGoto .fireAndForget) localEvents
        (abcWorld .null 0)).steps
        (run (emitGoto .fireAndForget) localEvents
        (abcWorld .null 0)).activeStep = true) ∧
      ((goto (emitGoto .fireAndForget) (.str "q") .undefined (run (emitGoto .fireAndForget) localEvents
        (abcWorld .null 0))).1 = .normal .null ∨
        isStep (goto (emitGoto .fireAndForget) (.str "q") .undefined
          (run (emitGoto .fireAndForget) localEvents
        (abcWorld .null 0))).2.steps
          (goto (emitGoto .fireAndForget) (.str "q") .undefined (run (emitGoto .fireAndForget) localEvents
        (abcWorld .null 0))).2.activeStep = true) ∧
      ((next (emitGoto .fireAndForget) (run (emitGoto .fireAndForget) localEvents
        (abcWorld .null 0))).1 = .normal .null ∨
        isStep (next (emitGoto .fireAndForget) (run (emitGoto .fireAndForget) localEvents
        (abcWorld .null 0))).2.steps
          (next (emitGoto .fireAndForget) (run (emitGoto .fireAndForget) localEvents
        (abcWorld .null 0))).2.activeStep = true) ∧
      ((prev (emitGoto .fireAndForget) (run (emitGoto .fireAndForget) localEvents
        (abcWorld .null 0))).1 = .normal .null ∨
        isStep (prev (emitGoto .fireAndForget) (run (emitGoto .fireAndForget) localEvents
        (abcWorld .null 0))).2.steps
          (prev (emitGoto .fireAndForget) (run (emitGoto .fireAndForget) localEvents
        (abcWorld .null 0))).2.activeStep = true) :=
  local_membership_invariant localEvents
    (abcWorld .null 0) _ (.str "q") .undefined
    (by intro data hm; simp [localEvents] at hm) rfl rfl

/-! ## The loopback channel -/

/-- The callback in a settled state, handed the step at index `j`: the offset loop
ends at index `(j + offset) mod |S|`, nothing is handed to the channel. -/
theorem onGoto_from_index (emit : Emit) (w : World) (j : Nat) (a : String) (dur : JsVal)
    (hnd : w.steps.Nodup) (hj : w.steps[j]? = some a) (hb : w.fnBound = true)
    (hs : Settled w) :
    ∃ b r, w.steps[(j + w.offset) % w.steps.length]? = some b ∧
      onGoto emit (.obj (.str a) dur) w = (.normal (), r) ∧
      r.activeStep = .str b ∧ r.emitted = w.emitted := by
  obtain ⟨b, hb1, hb2⟩ := advance_from_index w.offset { w with activeStep := .str a } j a
    hnd hb hj rfl
  rw [onGoto_obj emit (.str a) dur w (by simp) (by simp), hb2]
  cases hfn : w.impressIsFn with
  | false =>
    refine ⟨b, { w with activeStep := .str b }, hb1, ?_, rfl, rfl⟩
    simp [andThen, hfn]
  | true =>
    have hp : w.impressPatched = true := by
      rcases hs with h | h
      · rw [hfn] at h; cases h
      · exact h
    refine ⟨b, gotoOrig (.str b) dur (impressCall none { w with activeStep := .str b }),
      hb1, ?_, ?_, ?_⟩
    · simp [andThen, hfn, hp]
    · exact (gotoOrig_impressCall_frame _ _ _ _).1
    · exact (gotoOrig_impressCall_frame _ _ _ _).2.1

/-- On the loopback channel, at any nesting depth left, `goto` of the step at index
`i` in a settled state returns the step at index `(i + offset) mod |S|`. -/
theorem goto_loopback_settled (m : Nat) (w : World) (i : Nat) (a : String) (d : JsVal)
    (hnd : w.steps.Nodup) (hi : w.steps[i]? = some a) (hb : w.fnBound = true)
    (hcb : w.onGotoCb = true) (hs : Settled w) :
    ∃ b r, w.steps[(i + w.offset) % w.steps.length]? = some b ∧
      goto (loopbackEmit (m + 1)) (.str a) d w = (.normal (.str b), r) ∧
      r.activeStep = .str b ∧ r.emitted = w.emitted ++ [⟨.str a, d⟩] := by
  have hmem : a ∈ w.steps := List.getElem?_mem hi
  have hidx : ¬ indexOf w.steps (.str a) < 0 := by
    have := indexOfFrom_mem_nonneg a w.steps hmem 0
    unfold indexOf; omega
  have hemit : loopbackEmit (m + 1) ⟨.str a, d⟩ { w with activeStep := .str a } =
      onGoto (loopbackEmit m) (.obj (.str a) d)
        (publish ⟨.str a, d⟩ { w with activeStep := .str a }) := by
    show (if (publish ⟨.str a, d⟩ { w with activeStep := .str a }).onGotoCb then
        onGoto (loopbackEmit m) (.obj (.str a) d)
          (publish ⟨.str a, d⟩ { w with activeStep := .str a })
      else (.normal (), publish ⟨.str a, d⟩ { w with activeStep := .str a })) = _
    have hcb1 : (publish ⟨.str a, d⟩ { w with activeStep := .str a }).onGotoCb = true := hcb
    rw [if_pos hcb1]
  obtain ⟨b, r, h1, h2, h3, h4⟩ := onGoto_from_index (loopbackEmit m)
    (publish ⟨.str a, d⟩ { w with activeStep := .str a }) i a d hnd hi hb hs
  refine ⟨b, r, h1, ?_, h3, h4⟩
  unfold goto
  simp only [if_neg hidx]
  rw [hemit, h2]
  show (Completion.normal r.activeStep, r) = _
  rw [h3]

/-- The start-up `goto` of `patchImpress` on the loopback channel, when the fragment
names the step at index `j`: the step at index `(j + offset) mod |S|` ends up active. -/
theorem patchImpress_loopback (w : World) (j : Nat) (h : String) (hnd : w.steps.Nodup)
    (hj : w.steps[j]? = some h) (hfrag : stripFragment w.hash = h) (hne : h ≠ "")
    (hb : w.fnBound = true) (hcb : w.onGotoCb = true) (hfn : w.impressIsFn = true)
    (hp : w.impressPatched = false) (hr : w.rootPresent = true) :
    ∃ c r, w.steps[(j + w.offset) % w.steps.length]? = some c ∧
      patchImpress (loopbackEmit 1) w = (.normal (), r) ∧ r.activeStep = .str c ∧
      r.impressPatched = true := by
  obtain ⟨c, r, h1, h2, h3, -⟩ := goto_loopback_settled 0
    { w with initListener := false, impressPatched := true } j h (.num 0)
    hnd hj hb hcb (Or.inr rfl)
  have hk := keeps_goto (loopbackEmit 1) (emitKeeps_loopbackEmit 1) (.str h) (.num 0)
    { w with initListener := false, impressPatched := true }
  rw [h2] at hk
  refine ⟨c, r, h1, ?_, h3, hk.patched rfl⟩
  rw [patchImpress_patching _ w hp hfn hr]
  have hstart : gotoStart (loopbackEmit 1) { w with initListener := false, impressPatched := true }
      = goto (loopbackEmit 1) (.str h) (.num 0)
          { w with initListener := false, impressPatched := true } := by
    unfold gotoStart getElementFromHash
    have hb1 : ({ w with initListener := false, impressPatched := true } : World).fnBound
        = true := hb
    have hf1 : stripFragment ({ w with initListener := false, impressPatched := true } : World).hash
        = h := hfrag
    rw [if_pos hb1]
    simp only [hf1, if_neg hne]
  rw [hstart, h2]
  rfl

/-- On the loopback channel, while the host library is loaded but not patched, a
`goto` of a step of the sequence makes the callback patch the host, and the start-up
`goto` decides the outcome: when the fragment names the step at index `j`, the call
returns the step at index `(j + offset) mod |S|` and leaves it active, whatever step
was asked for. -/
theorem goto_loopback_unpatched (w : World) (i j : Nat) (a h : String) (d : JsVal)
    (hnd : w.steps.Nodup) (hi : w.steps[i]? = some a) (hj : w.steps[j]? = some h)
    (hfrag : stripFragment w.hash = h) (hne : h ≠ "") (hb : w.fnBound = true)
    (hcb : w.onGotoCb = true) (hfn : w.impressIsFn = true)
    (hp : w.impressPatched = false) (hr : w.rootPresent = true) :
    ∃ c r, w.steps[(j + w.offset) % w.steps.length]? = some c ∧
      goto (emitGoto .loopback) (.str a) d w = (.normal (.str c), r) ∧
      r.activeStep = .str c := by
  have hmem : a ∈ w.steps := List.getElem?_mem hi
  have hidx : ¬ indexOf w.steps (.str a) < 0 := by
    have := indexOfFrom_mem_nonneg a w.steps hmem 0
    unfold indexOf; omega
  have hemit : emitGoto .loopback ⟨.str a, d⟩ { w with activeStep := .str a } =
      onGoto (loopbackEmit 1) (.obj (.str a) d)
        (publish ⟨.str a, d⟩ { w with activeStep := .str a }) := by
    show (if (publish ⟨.str a, d⟩ { w with activeStep := .str a }).onGotoCb then
        onGoto (loopbackEmit 1) (.obj (.str a) d)
          (publish ⟨.str a, d⟩ { w with activeStep := .str a })
      else (.normal (), publish ⟨.str a, d⟩ { w with activeStep := .str a })) = _
    have hcb1 : (publish ⟨.str a, d⟩ { w with activeStep := .str a }).onGotoCb = true := hcb
    rw [if_pos hcb1]
  obtain ⟨v, hv⟩ := advance_frame w.offset
    { publish ⟨.str a, d⟩ { w with activeStep := .str a } with activeStep := .str a } hb
  obtain ⟨c, r, h1, h2, h3, h4⟩ := patchImpress_loopback
    { publish ⟨.str a, d⟩ { w with activeStep := .str a } with activeStep := v }
    j h hnd hj hfrag hne hb hcb hfn hp hr
  have hhandler : onGoto (loopbackEmit 1) (.obj (.str a) d)
      (publish ⟨.str a, d⟩ { w with activeStep := .str a })
      = (.normal (), gotoOrig r.activeStep d (impressCall none r)) := by
    rw [onGoto_obj _ (.str a) d _ (by simp) (by simp)]
    have hv1 : advance (publish ⟨.str a, d⟩ { w with activeStep := .str a }).offset
        { publish ⟨.str a, d⟩ { w with activeStep := .str a } with activeStep := .str a }
        = (.normal (),
          { publish ⟨.str a, d⟩ { w with activeStep := .str a } with activeStep := v }) := hv
    rw [hv1]
    show (if ({ publish ⟨.str a, d⟩ { w with activeStep := .str a } with
          activeStep := v } : World).impressIsFn then
        andThen (if !({ publish ⟨.str a, d⟩ { w with activeStep := .str a } with
            activeStep := v } : World).impressPatched
          then patchImpress (loopbackEmit 1)
            { publish ⟨.str a, d⟩ { w with activeStep := .str a } with activeStep := v }
          else (.normal (),
            { publish ⟨.str a, d⟩ { w with activeStep := .str a } with activeStep := v }))
          (fun _ w3 => (.normal (), gotoOrig w3.activeStep d (impressCall none w3)))
      else (.normal (),
        { publish ⟨.str a, d⟩ { w with activeStep := .str a } with activeStep := v })) = _
    have hfn1 : ({ publish ⟨.str a, d⟩ { w with activeStep := .str a } with
        activeStep := v } : World).impressIsFn = true := hfn
    have hp1 : (!({ publish ⟨.str a, d⟩ { w with activeStep := .str a } with
        activeStep := v } : World).impressPatched) = true := by
      show (!w.impressPatched) = true
      rw [hp]; rfl
    rw [if_pos hfn1, if_pos hp1, h2]
    rfl
  refine ⟨c, gotoOrig r.activeStep d (impressCall none r), h1, ?_, ?_⟩
  · unfold goto
    simp only [if_neg hidx]
    rw [hemit, hhandler]
    show (Completion.normal (gotoOrig r.activeStep d (impressCall none r)).activeStep, _) = _
    rw [(gotoOrig_impressCall_frame r.activeStep d none r).1, h3]
  · rw [(gotoOrig_impressCall_frame r.activeStep d none r).1, h3]

/-- C24: what the code does while the host library is loaded but not patched yet: on
steps `a, b, c` with the example's offset 1 and fragment `#/b`, `goto("a")` on the
loopback channel makes the callback run `patchImpress`, whose start-up `goto("b", 0)`
goes round the channel as well, and the call returns `c` with `c` active; the claimed
step is the one after `a`, which is `b`. -/
theorem loopback_goto_unpatched :
    (loadImpress (abcAt "#/b" 1)).steps[(0 + (loadImpress (abcAt "#/b" 1)).offset)
        % (loadImpress (abcAt "#/b" 1)).steps.length]? = some "b" ∧
      ∃ r, goto (emitGoto .loopback) (.str "a") .undefined (loadImpress (abcAt "#/b" 1))
          = (.normal (.str "c"), r) ∧
        r.activeStep = .str "c" := by
  refine ⟨by decide, ?_⟩
  obtain ⟨c, r, h1, h2, h3⟩ := goto_loopback_unpatched (loadImpress (abcAt "#/b" 1)) 0 1
    "a" "b" .undefined (by decide) (by decide) (by decide) (by decide) (by decide)
    (by decide) (by decide) (by decide) (by decide) (by decide)
  have hc : c = "c" := by
    have h4 : (some "c" : Option String) = some c := h1
    exact (Option.some.inj h4).symm
  subst hc
  exact ⟨r, h2, h3⟩

/-- The sibling path of C24, which does what the claim says: on the loopback channel,
in a constructed adapter with
pairwise-distinct steps whose host library is absent or already patched, `goto` of the
step at index `i` returns the step at index `(i + offset) mod |S|` and leaves it
active, having handed the channel the one payload with the step at index `i`; with
offset 1 that is the step at index `(i + 1) mod |S|`. -/
theorem loopback_goto_offset (w : World) (i : Nat) (a : String) (d : JsVal)
    (hnd : w.steps.Nodup) (hi : w.steps[i]? = some a) (hb : w.fnBound = true)
    (hcb : w.onGotoCb = true) (hs : Settled w) :
    ∃ b r, w.steps[(i + w.offset) % w.steps.length]? = some b ∧
      goto (emitGoto .loopback) (.str a) d w = (.normal (.str b), r) ∧
      r.activeStep = .str b ∧ r.emitted = w.emitted ++ [⟨.str a, d⟩] := by
  exact goto_loopback_settled 1 w i a d hnd hi hb hcb hs

/-- The sibling path of C24 at a concrete state: steps `a, b, c`, the example's offset 1, host
patched, `goto("c")`. -/
theorem loopback_goto_offset_witness :
    ∃ b r, (abcPatched 1).steps[(2 + (abcPatched 1).offset) % (abcPatched 1).steps.length]?
        = some b ∧
      goto (emitGoto .loopback) (.str "c") (.num 5) (abcPatched 1) = (.normal (.str b), r) ∧
      r.activeStep = .str b ∧
      r.emitted = (abcPatched 1).emitted ++ [⟨.str "c", .num 5⟩] :=
  loopback_goto_offset (abcPatched 1) 2 "c" (.num 5)
    (by decide) (by decide) (by decide) (by decide) (Or.inr rfl)

end ImpressAsqAdapter
